import Mathlib

/-!
# Verification of the aq structured-data core

A shallow embedding of the aq comment/anchor-preserving parse and encode
core (JSON/JSONC, YAML, TOML, INI plugins; metadata model; quote-aware
scanner; format detection), with theorems checking the natural-language
specification against the code.

Conventions of the embedding:
* JS strings are Lean `String`s; character scans work on `String.data`.
* JS objects that carry data fields plus `Symbol.for`-keyed non-enumerable
  metadata (`aq:comments`, `aq:anchors`, `aq:multi-document`) are embedded
  as a `Value` whose composite constructors carry the ordinary fields and
  separate metadata components.  `Object.keys`, entry iteration and
  `JSON.stringify` read only the ordinary fields, which is exactly the
  ECMAScript behaviour for symbol-keyed non-enumerable properties.
* Fallible JS code (`throw`) is embedded with `Except String`.
* JS assoc-object field assignment `o[k] = v` keeps the position of an
  existing key and appends new keys, which `alSet` reproduces.
-/

namespace Aq

/-- A comment entry `{ before?, after? }` from `infrastructure/comments.ts`. -/
structure CommentEntry where
  before : Option String := none
  after : Option String := none
deriving DecidableEq, Repr

/-- An anchor entry `{ anchor?, alias? }` from `infrastructure/anchors.ts`.
The `alias` field is called `aliasName` here because `alias` is a Lean keyword. -/
structure AnchorEntry where
  anchor : Option String := none
  aliasName : Option String := none
deriving DecidableEq, Repr

/-- Update-or-append on an association list: the embedding of JS object
field assignment `o[k] = v` (existing keys keep their position, new keys
are appended in insertion order). -/
def alSet {α : Type} : List (String × α) → String → α → List (String × α)
  | [], k, v => [(k, v)]
  | (k', v') :: t, k, v =>
    if k' = k then (k, v) :: t else (k', v') :: alSet t k v

/-- Lookup on an association list: the embedding of JS property read `o[k]`. -/
def alGet {α : Type} : List (String × α) → String → Option α
  | [], _ => none
  | (k', v') :: t, k => if k' = k then some v' else alGet t k

/-- Remove a key from an association list: the embedding of JS `delete o[k]`. -/
def alDel {α : Type} : List (String × α) → String → List (String × α)
  | [], _ => []
  | (k', v') :: t, k => if k' = k then t else (k', v') :: alDel t k

/-- The parsed value tree.  Maps and sequences carry their data fields
(`fields`/`items`) plus the two symbol-keyed metadata side channels
(`cm` = comment map, `am` = anchor map) and, for arrays, the
`aq:multi-document` marker flag.  Numbers keep their source lexeme. -/
inductive Value where
  | vnull
  | vbool (b : Bool)
  | vnum (lit : String)
  | vstr (s : String)
  | varr (items : List Value) (cm : List (String × CommentEntry))
      (am : List (String × AnchorEntry)) (multiDoc : Bool)
  | vobj (fields : List (String × Value)) (cm : List (String × CommentEntry))
      (am : List (String × AnchorEntry))

namespace Value

/-- `typeof v === "object" && v !== null` for the embedded value. -/
def isComposite : Value → Bool
  | varr .. => true
  | vobj .. => true
  | _ => false

/-- The comment map attached to a composite value (empty on primitives,
which can never carry the comments symbol). -/
def cmOf : Value → List (String × CommentEntry)
  | varr _ cm _ _ => cm
  | vobj _ cm _ => cm
  | _ => []

/-- The anchor map attached to a composite value. -/
def amOf : Value → List (String × AnchorEntry)
  | varr _ _ am _ => am
  | vobj _ _ am => am
  | _ => []

/-- `hasComments` from `comments.ts`: the comments symbol is present.  In
every code path of the repository the symbol is created together with a
first entry, so symbol presence is embedded as map non-emptiness. -/
def hasComments (v : Value) : Bool := !v.cmOf.isEmpty

/-- `getComments` from `comments.ts`. -/
def getComments (v : Value) : Option (List (String × CommentEntry)) :=
  if v.hasComments then some v.cmOf else none

/-- `getComment(obj, key)` from `comments.ts`. -/
def getComment (v : Value) (k : String) : Option CommentEntry :=
  match v.getComments with
  | none => none
  | some m => alGet m k

/-- `setComments(obj, map)` from `comments.ts`: wholesale replacement of
the comment map (a no-op on primitives, on which the TS signature
forbids the call). -/
def setComments : Value → List (String × CommentEntry) → Value
  | varr it _ am md, m => varr it m am md
  | vobj f _ am, m => vobj f m am
  | v, _ => v

/-- `setComment(obj, key, entry)` from `comments.ts`: creates the map on
first use, then `map[key] = entry`. -/
def setComment : Value → String → CommentEntry → Value
  | varr it cm am md, k, e => varr it (alSet cm k e) am md
  | vobj f cm am, k, e => vobj f (alSet cm k e) am
  | v, _, _ => v

/-- `cloneComments(source, target)` from `comments.ts`: deep-copies the
full comment map from one container to another when the source has one. -/
def cloneComments (src : Value) (tgt : Value) : Value :=
  match src.getComments with
  | some m => tgt.setComments m
  | none => tgt

/-- `hasAnchors` from `anchors.ts`. -/
def hasAnchors (v : Value) : Bool := !v.amOf.isEmpty

/-- `getAnchors` from `anchors.ts`. -/
def getAnchors (v : Value) : Option (List (String × AnchorEntry)) :=
  if v.hasAnchors then some v.amOf else none

/-- `getAnchor(obj, key)` from `anchors.ts`. -/
def getAnchor (v : Value) (k : String) : Option AnchorEntry :=
  match v.getAnchors with
  | none => none
  | some m => alGet m k

/-- `setAnchor(obj, key, entry)` from `anchors.ts`. -/
def setAnchor : Value → String → AnchorEntry → Value
  | varr it cm am md, k, e => varr it cm (alSet am k e) md
  | vobj f cm am, k, e => vobj f cm (alSet am k e)
  | v, _, _ => v

/-- `Object.keys(v)`: enumerable own string-keyed properties, in order;
array indices stringify.  Symbol-keyed metadata never appears. -/
def keysOf : Value → List String
  | vobj f _ _ => f.map Prod.fst
  | varr it _ _ _ => (List.range it.length).map toString
  | _ => []

/-- `Object.entries(v)`-style iteration (keys paired with field values). -/
def entriesOf : Value → List (String × Value)
  | vobj f _ _ => f
  | varr it _ _ _ => ((List.range it.length).map toString).zip it
  | _ => []

end Value

/-- JSON string escaping for the metadata-oblivious serializer. -/
def jsEscapeChar (c : Char) : String :=
  if c = '"' then "\\\""
  else if c = '\\' then "\\\\"
  else if c = '\n' then "\\n"
  else if c = '\t' then "\\t"
  else if c = '\r' then "\\r"
  else String.singleton c

/-- JSON string escaping, character by character. -/
def jsEscape (s : String) : String :=
  String.join (s.data.map jsEscapeChar)

/-- Comma-join a list of rendered fragments. -/
def joinComma : List String → String
  | [] => ""
  | [x] => x
  | x :: xs => x ++ "," ++ joinComma xs

mutual

/-- A metadata-oblivious serialization of a value (compact
`JSON.stringify` shape): it reads only the ordinary data fields, exactly
as `JSON.stringify` does for objects with symbol-keyed non-enumerable
metadata. -/
def plainJson : Value → String
  | .vnull => "null"
  | .vbool b => cond b "true" "false"
  | .vnum lit => lit
  | .vstr s => "\"" ++ jsEscape s ++ "\""
  | .varr items _ _ _ => "[" ++ joinComma (plainJsonList items) ++ "]"
  | .vobj fields _ _ => "\x7b" ++ joinComma (plainJsonFields fields) ++ "\x7d"

/-- Serialize array elements. -/
def plainJsonList : List Value → List String
  | [] => []
  | v :: vs => plainJson v :: plainJsonList vs

/-- Serialize object fields. -/
def plainJsonFields : List (String × Value) → List String
  | [] => []
  | (k, v) :: fs => ("\"" ++ jsEscape k ++ "\":" ++ plainJson v) :: plainJsonFields fs

end

/-! ## Quote-aware scanner (`infrastructure/commentExtractor.ts`) -/

/-- The loop of `findUnquotedMarker(line, marker)`: scans left to right
tracking single/double quote state.  `prev` is `line[i-1]` (for the
backslash-escape check), `i` the current index.  Returns the first index
where the marker occurs while not inside any quote, else `-1`. -/
def findUnquotedMarkerAux (marker : List Char) :
    List Char → Option Char → Bool → Bool → Nat → Int
  | [], _, _, _, _ => -1
  | c :: rest, prev, inS, inD, i =>
    if c = '\'' && !inD then
      findUnquotedMarkerAux marker rest (some c) (!inS) inD (i + 1)
    else if c = '"' && !inS then
      if prev = some '\\' then
        findUnquotedMarkerAux marker rest (some c) inS inD (i + 1)
      else
        findUnquotedMarkerAux marker rest (some c) inS (!inD) (i + 1)
    else if !inS && !inD && marker.isPrefixOf (c :: rest) then
      (i : Int)
    else
      findUnquotedMarkerAux marker rest (some c) inS inD (i + 1)

/-- `findUnquotedMarker` from `commentExtractor.ts`. -/
def findUnquotedMarker (line marker : String) : Int :=
  findUnquotedMarkerAux marker.data line.data none false false 0

/-- Declarative quote-state transition at one character: a single quote
toggles only outside double quotes, a double quote toggles only outside
single quotes and only when not backslash-escaped. -/
def quoteStep (prev : Option Char) (c : Char) (st : Bool × Bool) : Bool × Bool :=
  if c = '\'' && !st.2 then (!st.1, st.2)
  else if c = '"' && !st.1 then
    if prev = some '\\' then st else (st.1, !st.2)
  else st

/-- The quote state reached after consuming `k` characters of `cs`,
starting from state `st` with previous character `prev`. -/
def quoteStateFrom : List Char → Option Char → Bool × Bool → Nat → Bool × Bool
  | _, _, st, 0 => st
  | [], _, st, _ + 1 => st
  | c :: rest, prev, st, k + 1 => quoteStateFrom rest (some c) (quoteStep prev c st) k

/-- Position `k` is an unquoted occurrence of `marker` in `cs` (scanned
with previous character `prev` and starting state `st`): the quote state
before `k` is outside both quote kinds, the character at `k` is not
itself a quote delimiter (a delimiter belongs to the quoted region it
opens or closes), and the marker occurs at `k`. -/
def unquotedHit (marker cs : List Char) (prev : Option Char)
    (st : Bool × Bool) (k : Nat) : Bool :=
  quoteStateFrom cs prev st k = (false, false) &&
    (match cs.drop k with
      | [] => true
      | c :: _ => !(c = '\'') && !(c = '"')) &&
    marker.isPrefixOf (cs.drop k)

/-- Declarative reading of the scanner: the least index that is an
unquoted occurrence of the marker, else `-1`. -/
def specFindUnquoted (line marker : String) : Int :=
  match (List.range line.data.length).find?
      (unquotedHit marker.data line.data none (false, false)) with
  | some k => (k : Int)
  | none => -1

/-- Shifting `unquotedHit` across one consumed character. -/
theorem unquotedHit_succ (marker : List Char) (c : Char) (rest : List Char)
    (prev : Option Char) (st : Bool × Bool) (k : Nat) :
    unquotedHit marker (c :: rest) prev st (k + 1) =
      unquotedHit marker rest (some c) (quoteStep prev c st) k := rfl

/-- The scanner loop agrees with the declarative least-unquoted-occurrence
reading, for every suffix, carried state and base index. -/
theorem findUnquotedMarkerAux_eq_spec (marker : List Char) :
    ∀ (cs : List Char) (prev : Option Char) (st : Bool × Bool) (i : Nat),
      findUnquotedMarkerAux marker cs prev st.1 st.2 i =
        match (List.range cs.length).find? (unquotedHit marker cs prev st) with
        | some k => ((i + k : Nat) : Int)
        | none => -1 := by
  intro cs
  induction cs with
  | nil => intro prev st i; rfl
  | cons c rest ih =>
    intro prev st i
    have hshift : ∀ (om : Option Nat),
        (match om with
          | some k => ((i + 1 + k : Nat) : Int)
          | none => -1) =
        (match om.map Nat.succ with
          | some k => ((i + k : Nat) : Int)
          | none => (-1 : Int)) := by
      intro om
      cases om with
      | none => rfl
      | some k =>
        show ((i + 1 + k : Nat) : Int) = ((i + (k + 1) : Nat) : Int)
        congr 1
        omega
    have hfind0 : unquotedHit marker (c :: rest) prev st 0 = false →
        (List.range (c :: rest).length).find? (unquotedHit marker (c :: rest) prev st) =
          ((List.range rest.length).find?
            (unquotedHit marker rest (some c) (quoteStep prev c st))).map Nat.succ := by
      intro h0
      show (List.range (rest.length + 1)).find? _ = _
      rw [List.range_succ_eq_map, List.find?, h0]
      show ((List.range rest.length).map Nat.succ).find? _ = _
      rw [List.find?_map]
      congr 1
    have hfind1 : unquotedHit marker (c :: rest) prev st 0 = true →
        (List.range (c :: rest).length).find?
          (unquotedHit marker (c :: rest) prev st) = some 0 := by
      intro h0
      show (List.range (rest.length + 1)).find? _ = _
      rw [List.range_succ_eq_map, List.find?, h0]
    rw [findUnquotedMarkerAux]
    by_cases h1 : (c = '\'' && !st.2) = true
    · rw [if_pos h1]
      simp only [Bool.and_eq_true] at h1
      have hc : c = '\'' := of_decide_eq_true h1.1
      have h0 : unquotedHit marker (c :: rest) prev st 0 = false := by
        show (decide (st = (false, false)) &&
          (!(decide (c = '\'')) && !(decide (c = '"'))) &&
          marker.isPrefixOf (c :: rest)) = false
        simp [hc]
      have hstep : quoteStep prev c st = (!st.1, st.2) := by
        unfold quoteStep
        rw [if_pos (by simp [hc, h1.2])]
      rw [hfind0 h0, hstep]
      exact (ih (some c) (!st.1, st.2) (i + 1)).trans (hshift _)
    · rw [if_neg h1]
      by_cases h2 : (c = '"' && !st.1) = true
      · rw [if_pos h2]
        simp only [Bool.and_eq_true] at h2
        have hcq : c = '"' := of_decide_eq_true h2.1
        have h0 : unquotedHit marker (c :: rest) prev st 0 = false := by
          show (decide (st = (false, false)) &&
            (!(decide (c = '\'')) && !(decide (c = '"'))) &&
            marker.isPrefixOf (c :: rest)) = false
          simp [hcq]
        have hstep : quoteStep prev c st =
            (if prev = some '\\' then st else (st.1, !st.2)) := by
          unfold quoteStep
          rw [if_neg h1, if_pos (by simp [hcq, h2.2])]
        rw [hfind0 h0]
        by_cases hesc : prev = some '\\'
        · rw [if_pos hesc] at hstep
          rw [if_pos hesc, hstep]
          exact (ih (some c) st (i + 1)).trans (hshift _)
        · rw [if_neg hesc] at hstep
          rw [if_neg hesc, hstep]
          exact (ih (some c) (st.1, !st.2) (i + 1)).trans (hshift _)
      · rw [if_neg h2]
        have hstep : quoteStep prev c st = st := by
          unfold quoteStep
          rw [if_neg h1, if_neg h2]
        by_cases h3 : (!st.1 && !st.2 && marker.isPrefixOf (c :: rest)) = true
        · rw [if_pos h3]
          simp only [Bool.and_eq_true] at h3
          have e1 : st.1 = false := by
            cases hb : st.1
            · rfl
            · rw [hb] at h3; simp at h3
          have e2 : st.2 = false := by
            cases hb : st.2
            · rfl
            · rw [hb] at h3; simp at h3
          have hst : st = (false, false) := Prod.ext e1 e2
          have hc1 : ¬ c = '\'' := by
            intro hcc
            exact h1 (by simp [hcc, e2])
          have hc2 : ¬ c = '"' := by
            intro hcc
            exact h2 (by simp [hcc, e1])
          have h0 : unquotedHit marker (c :: rest) prev st 0 = true := by
            show (decide (st = (false, false)) &&
              (!(decide (c = '\'')) && !(decide (c = '"'))) &&
              marker.isPrefixOf (c :: rest)) = true
            simp [hst, hc1, hc2, h3.2]
          rw [hfind1 h0]
          show (i : Int) = ((i + 0 : Nat) : Int)
          norm_num
        · rw [if_neg h3]
          have h0 : unquotedHit marker (c :: rest) prev st 0 = false := by
            show (decide (st = (false, false)) &&
              (!(decide (c = '\'')) && !(decide (c = '"'))) &&
              marker.isPrefixOf (c :: rest)) = false
            by_cases hst : st = (false, false)
            · have hpre : marker.isPrefixOf (c :: rest) = false := by
                cases hp : marker.isPrefixOf (c :: rest)
                · rfl
                · exact absurd (by simp [hst, hp]) h3
              simp [hpre]
            · simp [hst]
          rw [hfind0 h0, hstep]
          exact (ih (some c) st (i + 1)).trans (hshift _)

/-- The scanner on whole strings agrees with the declarative reading. -/
theorem findUnquotedMarker_eq_spec (line marker : String) :
    findUnquotedMarker line marker = specFindUnquoted line marker := by
  have h := findUnquotedMarkerAux_eq_spec marker.data line.data none (false, false) 0
  unfold findUnquotedMarker specFindUnquoted
  rw [h]
  cases (List.range line.data.length).find?
      (unquotedHit marker.data line.data none (false, false)) with
  | none => rfl
  | some k => show ((0 + k : Nat) : Int) = (k : Int); norm_num

/-- C5: for every line and marker, `findUnquotedMarker` returns the index
of the first occurrence of the marker that is not inside a single- or
double-quoted region (single-quote toggling ignored inside double quotes
and vice versa; a backslash-escaped double quote does not toggle state),
and `-1` when the marker is absent or occurs only inside quotes; in
particular the two spec examples hold. -/
theorem findUnquotedMarker_correct :
    (forall (line marker : String),
      findUnquotedMarker line marker = specFindUnquoted line marker) /\
    findUnquotedMarker "name: \"John # not comment\"" "#" = -1 /\
    findUnquotedMarker "name: John  # comment" "#" = 12 := by
  refine ⟨findUnquotedMarker_eq_spec, ?_, ?_⟩ <;> decide

/-- C2: the metadata write operations (`setComment`, `setComments`,
`cloneComments`, `setAnchor`) change nothing that key enumeration, entry
iteration or a metadata-oblivious JSON serialization observes on the
container: comment and anchor data never appear as an ordinary field. -/
theorem metadata_writes_invisible :
    forall (v : Value) (k : String) (e : CommentEntry)
      (m : List (String × CommentEntry)) (a : AnchorEntry) (src : Value),
      (Value.keysOf (v.setComment k e) = v.keysOf /\
        Value.entriesOf (v.setComment k e) = v.entriesOf /\
        plainJson (v.setComment k e) = plainJson v) /\
      (Value.keysOf (v.setComments m) = v.keysOf /\
        Value.entriesOf (v.setComments m) = v.entriesOf /\
        plainJson (v.setComments m) = plainJson v) /\
      (Value.keysOf (Value.cloneComments src v) = v.keysOf /\
        Value.entriesOf (Value.cloneComments src v) = v.entriesOf /\
        plainJson (Value.cloneComments src v) = plainJson v) /\
      (Value.keysOf (v.setAnchor k a) = v.keysOf /\
        Value.entriesOf (v.setAnchor k a) = v.entriesOf /\
        plainJson (v.setAnchor k a) = plainJson v) := by
  intro v k e m a src
  have hclone : Value.cloneComments src v = v.setComments src.cmOf \/
      Value.cloneComments src v = v := by
    unfold Value.cloneComments
    cases hsrc : src.getComments with
    | none => right; rfl
    | some mm =>
      left
      have : mm = src.cmOf := by
        unfold Value.getComments at hsrc
        by_cases hh : src.hasComments = true
        · rw [if_pos hh] at hsrc; exact (Option.some.inj hsrc).symm
        · rw [if_neg hh] at hsrc; cases hsrc
      rw [this]
  refine ⟨⟨?_, ?_, ?_⟩, ⟨?_, ?_, ?_⟩, ?_, ⟨?_, ?_, ?_⟩⟩
  · cases v <;> rfl
  · cases v <;> rfl
  · cases v <;> rfl
  · cases v <;> rfl
  · cases v <;> rfl
  · cases v <;> rfl
  · rcases hclone with h | h <;> rw [h]
    · exact ⟨by cases v <;> rfl, by cases v <;> rfl, by cases v <;> rfl⟩
    · exact ⟨rfl, rfl, rfl⟩
  · cases v <;> rfl
  · cases v <;> rfl
  · cases v <;> rfl

/-! ## Shared string primitives (ports of the JS string operations used) -/

/-- JS `\s` whitespace, restricted to its ASCII members (the repository
only ever meets ASCII whitespace). -/
def isJsWS (c : Char) : Bool :=
  c = ' ' || c = '\t' || c = '\r' || c = '\n' || c = '\x0b' || c = '\x0c'

/-- JS `String.prototype.trim` on a character list. -/
def trimChars (l : List Char) : List Char :=
  ((l.dropWhile isJsWS).reverse.dropWhile isJsWS).reverse

/-- Strip one trailing carriage return from a reversed line accumulator. -/
def dropLeadCr : List Char → List Char
  | '\r' :: t => t
  | l => l

/-- The loop of JS `split(/\r?\n/)`: `acc` holds the current line reversed. -/
def splitLinesAux : List Char → List Char → List (List Char)
  | [], acc => [acc.reverse]
  | '\n' :: rest, acc => (dropLeadCr acc).reverse :: splitLinesAux rest []
  | c :: rest, acc => splitLinesAux rest (c :: acc)

/-- JS `split(/\r?\n/)` on a character list. -/
def splitLinesJs (cs : List Char) : List (List Char) :=
  splitLinesAux cs []

/-- The loop of JS `split("\n")`. -/
def splitNlAux : List Char → List Char → List (List Char)
  | [], acc => [acc.reverse]
  | '\n' :: rest, acc => acc.reverse :: splitNlAux rest []
  | c :: rest, acc => splitNlAux rest (c :: acc)

/-- JS `split("\n")` on a string. -/
def splitNl (s : String) : List String :=
  (splitNlAux s.data []).map String.mk

/-- JS `Array.prototype.join(sep)`. -/
def joinSep (sep : String) : List String → String
  | [] => ""
  | [x] => x
  | x :: xs => x ++ sep ++ joinSep sep xs

/-- JS `replace(/^\s?/, "")`: drop at most one leading whitespace char. -/
def dropOneLeadingWs : List Char → List Char
  | [] => []
  | c :: r => if isJsWS c then r else c :: r

/-- JS string truthiness: the empty string is falsy. -/
def truthy : Option String → Option String
  | none => none
  | some s => if s = "" then none else some s

/-! ## INI plugin (the `part_012` `IniPlugin`: custom parser/stringifier
with native comment support and the 80% compliance guard) -/

/-- A character of the INI key/value regex class
`[\s\p{L}\p{N}\._\+-\/\\]` (note `\+-\/` is the character range from
`+` to `/`, i.e. `+ , - . /`).  `\p{L}`/`\p{N}` are taken at their ASCII
members, which is what the regex matches on ASCII input. -/
def iniWordChar (c : Char) : Bool :=
  isJsWS c || c.isAlpha || c.isDigit || c = '.' || c = '_' ||
    c = '+' || c = ',' || c = '-' || c = '/' || c = '\\'

/-- The key=value alternative of the INI compliance regex
`([class]+)=([class]+)` (anchored between `^\s*` and `\s*$`, both of
which fold into the whitespace-containing class): the line has exactly
one `=`, with a nonempty all-class string on each side. -/
def iniKvCompliant (line : List Char) : Bool :=
  let k := line.takeWhile (fun c => !(c = '='))
  match line.drop k.length with
  | '=' :: v =>
    !k.isEmpty && k.all iniWordChar && !v.isEmpty &&
      !v.contains '=' && v.all iniWordChar
  | _ => false

/-- The INI line compliance test
`/^\s*((\[.+\])|([class]+)=([class]+)|(;.*)|(#.*))\s*$/u` from the
`IniPlugin.decode` guard.  `.` does not match a carriage return, hence
the `'\r'` exclusions in the section and comment alternatives. -/
def iniLineCompliant (line : List Char) : Bool :=
  let t := trimChars line
  (match t with
    | '[' :: rest =>
      rest.length ≥ 2 && rest.getLast? = some ']' && !rest.contains '\r'
    | _ => false) ||
  (t.head? = some ';' && !t.contains '\r') ||
  (t.head? = some '#' && !t.contains '\r') ||
  iniKvCompliant line

/-- Modify the value at a key of an association list in place (no-op when
the key is absent): JS mutation through an object reference. -/
def alModify {α : Type} : List (String × α) → String → (α → α) → List (String × α)
  | [], _, _ => []
  | (k', v') :: t, k, f =>
    if k' = k then (k', f v') :: t else (k', v') :: alModify t k f

/-- The mutable state of the `parseIni` loop: the root object under
construction (`fields` plus its comment map `cm`), which section object
`currentSection` points at (`none` = the root), the queued pending
comment lines, and the `headerDone` flag. -/
structure IniSt where
  fields : List (String × Value)
  cm : List (String × CommentEntry)
  current : Option String
  pending : List String
  headerDone : Bool

/-- Initial `parseIni` state. -/
def IniSt.init : IniSt := ⟨[], [], none, [], false⟩

/-- `currentSection[key] = value`: assign into the root or into the
current section object. -/
def iniAssign (st : IniSt) (key : String) (v : Value) : IniSt :=
  match st.current with
  | none => { st with fields := alSet st.fields key v }
  | some name =>
    { st with
      fields := alModify st.fields name (fun s =>
        match s with
        | .vobj f c a => .vobj (alSet f key v) c a
        | other => other) }

/-- `setComment(currentSection, key, entry)`: attach to the root comment
map or to the current section object's comment map. -/
def iniSetSectionComment (st : IniSt) (key : String) (e : CommentEntry) : IniSt :=
  match st.current with
  | none => { st with cm := alSet st.cm key e }
  | some name =>
    { st with fields := alModify st.fields name (fun s => s.setComment key e) }

/-- The section-header regex `/^\[(.+)\]\s*$/` applied to an already
trimmed line: group 1 (then `.trim()`ed by the caller). -/
def iniSectionName (t : List Char) : Option String :=
  match t with
  | '[' :: rest =>
    if rest.length ≥ 2 && rest.getLast? = some ']' && !rest.contains '\r' then
      some (String.mk (trimChars rest.dropLast))
    else none
  | _ => none

/-- One iteration of the `parseIni` line loop (`part_012`, lines 20-74). -/
def iniStep (st : IniSt) (line : List Char) : IniSt :=
  let t := trimChars line
  if t.isEmpty then st
  else if t.head? = some ';' || t.head? = some '#' then
    { st with pending := st.pending ++ [String.mk (dropOneLeadingWs (t.drop 1))] }
  else
    match iniSectionName t with
    | some name =>
      let fields1 :=
        match alGet st.fields name with
        | some v =>
          if v.isComposite then st.fields
          else alSet st.fields name (.vobj [] [] [])
        | none => alSet st.fields name (.vobj [] [] [])
      let st1 := { st with fields := fields1, current := some name }
      let st2 :=
        if !st1.pending.isEmpty then
          if !st1.headerDone then
            { st1 with
                cm := alSet st1.cm "#" ⟨some (joinSep "\n" st1.pending), none⟩,
                pending := [] }
          else
            { st1 with
                cm := alSet st1.cm name ⟨some (joinSep "\n" st1.pending), none⟩,
                pending := [] }
        else st1
      { st2 with headerDone := true }
    | none =>
      let k := t.takeWhile (fun c => !(c = '='))
      match t.drop k.length with
      | '=' :: rest =>
        if k.isEmpty then st
        else
          let key := String.mk (trimChars k)
          let value := String.mk (trimChars rest)
          let st1 := iniAssign st key (.vstr value)
          let st2 :=
            if !st1.pending.isEmpty then
              if !st1.headerDone then
                { st1 with
                    cm := alSet st1.cm "#" ⟨some (joinSep "\n" st1.pending), none⟩,
                    pending := [], headerDone := true }
              else
                let st' := iniSetSectionComment
                  { st1 with pending := [] } key
                  ⟨some (joinSep "\n" st1.pending), none⟩
                if joinSep "\n" st1.pending = "" then { st1 with pending := [] } else st'
            else st1
          { st2 with headerDone := true }
      | _ => st

/-- `parseIni` from `part_012`: fold the line loop, then attach trailing
pending comments as the root trailing comment. -/
def parseIni (input : String) : Value :=
  let st := (splitLinesJs input.data).foldl iniStep IniSt.init
  let st1 :=
    if !st.pending.isEmpty then
      { st with
          cm := alSet st.cm "#"
            ⟨(alGet st.cm "#").bind (fun e => e.before),
              some (joinSep "\n" st.pending)⟩ }
    else st
  .vobj st1.fields st1.cm []

/-- `ParsedData` from `infrastructure/ParsedData.ts`. -/
structure ParsedData where
  documents : List Value
  isMultiDocument : Bool
  sourceFormat : Option String

/-- `IniPlugin.decode`: the compliance guard (at least 80% of non-blank
lines must match the INI line grammar; an input with no non-blank lines
counts as 0% compliant), then the always-succeeding `parseIni`.  The
floating-point percentage comparison `(c / n) * 100 < 80` is embedded as
the exact rational comparison `5 * c < 4 * n`. -/
def iniDecode (input : String) : Except String ParsedData :=
  let lines := splitLinesJs input.data
  let nonEmpty := lines.filter (fun l => !(trimChars l).isEmpty)
  let compliant := nonEmpty.filter iniLineCompliant
  if nonEmpty.length = 0 then
    .error "The input is not compliant with INI format."
  else if compliant.length * 5 < nonEmpty.length * 4 then
    .error "The input is not compliant with INI format."
  else
    .ok ⟨[parseIni input], false, some "INI"⟩

/-- Data fields of an object value (JS `Object.entries` on the objects
the INI stringifier meets). -/
def Value.fieldsOf : Value → List (String × Value)
  | .vobj f _ _ => f
  | _ => []

/-- JS `${value ?? ""}` string interpolation for the scalar values the
INI stringifier emits (composite values cannot reach the interpolation:
the global loop filters them out and decode never nests them in a
section). -/
def renderIniScalar : Value → String
  | .vstr s => s
  | .vnull => ""
  | .vbool b => cond b "true" "false"
  | .vnum lit => lit
  | .varr _ _ _ _ => ""
  | .vobj _ _ _ => "[object Object]"

/-- Render a `before` comment text as `; `-prefixed lines. -/
def iniCommentLines (b : String) : List String :=
  (splitNl b).map (fun cl => "; " ++ cl)

/-- One key=value output line with its comment decorations
(`stringifyIni` global/section entry emission). -/
def iniEntryLines (commented : Bool) (container : Value) (k : String) (v : Value) :
    List String :=
  if commented then
    let kc := container.getComment k
    (match truthy (kc.bind (fun e => e.before)) with
      | some b => iniCommentLines b
      | none => []) ++
    [match truthy (kc.bind (fun e => e.after)) with
      | some a => k ++ "=" ++ renderIniScalar v ++ "  ; " ++ a
      | none => k ++ "=" ++ renderIniScalar v]
  else [k ++ "=" ++ renderIniScalar v]

/-- `stringifyIni` from `part_012`: header comment, global keys, sections
(with a blank separator line above a commented section header), trailing
comment; joined with newlines plus a final newline. -/
def stringifyIni (data : Value) : String :=
  let fields := data.fieldsOf
  let commented := data.hasComments
  let headerLines :=
    if commented then
      match truthy ((data.getComment "#").bind (fun e => e.before)) with
      | some b => iniCommentLines b
      | none => []
    else []
  let globalLines :=
    (fields.filter (fun p => !p.2.isComposite)).flatMap
      (fun p => iniEntryLines commented data p.1 p.2)
  let sectionLines :=
    (fields.filter (fun p => p.2.isComposite)).flatMap (fun p =>
      (if commented then
        match truthy ((data.getComment p.1).bind (fun e => e.before)) with
        | some b => "" :: iniCommentLines b
        | none => []
      else []) ++
      ["[" ++ p.1 ++ "]"] ++
      (p.2.fieldsOf.flatMap (fun q => iniEntryLines commented p.2 q.1 q.2)))
  let trailLines :=
    if commented then
      match truthy ((data.getComment "#").bind (fun e => e.after)) with
      | some a => iniCommentLines a
      | none => []
    else []
  joinSep "\n" (headerLines ++ globalLines ++ sectionLines ++ trailLines) ++ "\n"

/-- `IniPlugin.encode`. -/
def iniEncode (data : Value) : String := stringifyIni data

/-! ## INI theorems -/

mutual

/-- Every leaf (non-object) position of the value holds a string. -/
def iniLeafStr : Value → Bool
  | .vstr _ => true
  | .vobj f _ _ => iniLeafStrFields f
  | _ => false

/-- `iniLeafStr` over object fields. -/
def iniLeafStrFields : List (String × Value) → Bool
  | [] => true
  | (_, v) :: t => iniLeafStr v && iniLeafStrFields t

end

/-- Reading `currentSection[key]` of the parse state. -/
def iniCurrentLookup (st : IniSt) (key : String) : Option Value :=
  match st.current with
  | none => alGet st.fields key
  | some name =>
    match alGet st.fields name with
    | some (.vobj f _ _) => alGet f key
    | _ => none

/-- The current-section pointer of the parse state refers to an existing
object (always the case for states reached by `parseIni`). -/
def iniCurrentOk (st : IniSt) : Bool :=
  match st.current with
  | none => true
  | some name =>
    match alGet st.fields name with
    | some (.vobj _ _ _) => true
    | _ => false

theorem alGet_alSet_self {α : Type} (f : List (String × α)) (k : String) (v : α) :
    alGet (alSet f k v) k = some v := by
  induction f with
  | nil => simp [alSet, alGet]
  | cons p t ih =>
    by_cases h : p.1 = k
    · simp [alSet, alGet, h]
    · simp [alSet, alGet, h, ih]

theorem alGet_alModify_self {α : Type} (f : List (String × α)) (k : String)
    (g : α → α) : alGet (alModify f k g) k = (alGet f k).map g := by
  induction f with
  | nil => simp [alModify, alGet]
  | cons p t ih =>
    by_cases h : p.1 = k
    · simp [alModify, alGet, h]
    · simp [alModify, alGet, h, ih]

theorem iniLeafStrFields_alSet (f : List (String × Value)) (k : String)
    (v : Value) (hf : iniLeafStrFields f = true) (hv : iniLeafStr v = true) :
    iniLeafStrFields (alSet f k v) = true := by
  induction f with
  | nil => simp [alSet, iniLeafStrFields, hv]
  | cons p t ih =>
    rw [iniLeafStrFields, Bool.and_eq_true] at hf
    obtain ⟨h1, h2⟩ := hf
    by_cases h : p.1 = k
    · cases p
      simp only at h
      simp [alSet, h, iniLeafStrFields, hv, h2]
    · cases p
      simp only at h
      simp [alSet, h, iniLeafStrFields, h1, ih h2]

theorem iniLeafStrFields_alModify (f : List (String × Value)) (k : String)
    (g : Value → Value) (hf : iniLeafStrFields f = true)
    (hg : forall v, iniLeafStr v = true → iniLeafStr (g v) = true) :
    iniLeafStrFields (alModify f k g) = true := by
  induction f with
  | nil => simpa [alModify] using hf
  | cons p t ih =>
    rw [iniLeafStrFields, Bool.and_eq_true] at hf
    obtain ⟨h1, h2⟩ := hf
    by_cases h : p.1 = k
    · cases p
      simp only at h
      simp [alModify, h, iniLeafStrFields, hg _ h1, h2]
    · cases p
      simp only at h
      simp [alModify, h, iniLeafStrFields, h1, ih h2]

theorem iniLeafStr_setComment (v : Value) (k : String) (e : CommentEntry)
    (h : iniLeafStr v = true) : iniLeafStr (v.setComment k e) = true := by
  cases v <;> simpa [Value.setComment, iniLeafStr] using h

theorem iniAssign_preserves (st : IniSt) (key : String) (s : String)
    (hf : iniLeafStrFields st.fields = true) :
    iniLeafStrFields (iniAssign st key (.vstr s)).fields = true := by
  unfold iniAssign
  cases st.current with
  | none => exact iniLeafStrFields_alSet _ _ _ hf rfl
  | some name =>
    apply iniLeafStrFields_alModify _ _ _ hf
    intro v hv
    cases v with
    | vobj f c a =>
      exact iniLeafStrFields_alSet _ _ _ (by simpa [iniLeafStr] using hv) rfl
    | vnull => exact hv
    | vbool b => exact hv
    | vnum l => exact hv
    | vstr t => exact hv
    | varr it c a m => exact hv

theorem iniSetSectionComment_preserves (st : IniSt) (key : String)
    (e : CommentEntry) (hf : iniLeafStrFields st.fields = true) :
    iniLeafStrFields (iniSetSectionComment st key e).fields = true := by
  unfold iniSetSectionComment
  cases st.current with
  | none => exact hf
  | some name =>
    exact iniLeafStrFields_alModify _ _ _ hf
      (fun v hv => iniLeafStr_setComment v key e hv)

theorem iniStep_preserves (st : IniSt) (line : List Char)
    (hf : iniLeafStrFields st.fields = true) :
    iniLeafStrFields (iniStep st line).fields = true := by
  unfold iniStep
  by_cases h0 : (trimChars line).isEmpty = true
  · simpa [h0] using hf
  · simp only [h0, if_false, Bool.false_eq_true]
    by_cases h1 : ((trimChars line).head? = some ';' ∨ (trimChars line).head? = some '#')
    · rw [if_pos (by simpa using h1)]
      exact hf
    · rw [if_neg (by simpa using h1)]
      cases hsec : iniSectionName (trimChars line) with
      | some name =>
        cases hget : alGet st.fields name with
        | some v =>
          have hemp : iniLeafStrFields (alSet st.fields name (Value.vobj [] [] [])) = true :=
            iniLeafStrFields_alSet st.fields name (Value.vobj [] [] []) hf rfl
          by_cases hcomp : v.isComposite = true
          · simp only [hget, hcomp, if_true]
            by_cases hp : st.pending.isEmpty = true <;>
              by_cases hd : st.headerDone = true <;>
                simp [hp, hd, hf]
          · simp only [hget, hcomp, if_false, Bool.false_eq_true]
            by_cases hp : st.pending.isEmpty = true <;>
              by_cases hd : st.headerDone = true <;>
                simp [hp, hd, hemp]
        | none =>
          have hemp : iniLeafStrFields (alSet st.fields name (Value.vobj [] [] [])) = true :=
            iniLeafStrFields_alSet st.fields name (Value.vobj [] [] []) hf rfl
          simp only [hget]
          by_cases hp : st.pending.isEmpty = true <;>
            by_cases hd : st.headerDone = true <;>
              simp [hp, hd, hemp]
      | none =>
        simp only [hsec]
        split
        · -- the `'=' :: rest` arm of the key=value match
          rename_i rest _
          by_cases hk : ((trimChars line).takeWhile (fun c => !(c = '='))).isEmpty = true
          · simpa [hk] using hf
          · simp only [hk, Bool.false_eq_true, if_false]
            have hassign : iniLeafStrFields
                (iniAssign st
                  (String.mk (trimChars ((trimChars line).takeWhile (fun c => !(c = '=')))))
                  (Value.vstr (String.mk (trimChars rest)))).fields = true :=
              iniAssign_preserves st _ _ hf
            set st1 := iniAssign st
              (String.mk (trimChars ((trimChars line).takeWhile (fun c => !(c = '=')))))
              (Value.vstr (String.mk (trimChars rest))) with hst1
            by_cases hp : st1.pending.isEmpty = true
            · rw [if_neg (show ¬((!st1.pending.isEmpty) = true) by simp [hp])]
              exact hassign
            · by_cases hd : st1.headerDone = true
              · rw [if_pos (show (!st1.pending.isEmpty) = true by simp [hp]),
                  if_neg (show ¬((!st1.headerDone) = true) by simp [hd])]
                split
                · exact hassign
                · exact iniSetSectionComment_preserves _ _ _ hassign
              · rw [if_pos (show (!st1.pending.isEmpty) = true by simp [hp]),
                  if_pos (show (!st1.headerDone) = true by simp [hd])]
                exact hassign
        · exact hf

theorem iniFold_preserves (lines : List (List Char)) :
    forall (st : IniSt), iniLeafStrFields st.fields = true →
      iniLeafStrFields ((lines.foldl iniStep st).fields) = true := by
  induction lines with
  | nil => intro st h; exact h
  | cons l t ih => intro st h; exact ih _ (iniStep_preserves st l h)

theorem iniCurrentLookup_setSectionComment (st : IniSt) (key k2 : String)
    (e : CommentEntry) :
    iniCurrentLookup (iniSetSectionComment st k2 e) key = iniCurrentLookup st key := by
  unfold iniCurrentLookup iniSetSectionComment
  cases hc : st.current with
  | none => simp [hc]
  | some name =>
    simp only [hc]
    rw [alGet_alModify_self]
    cases hg : alGet st.fields name with
    | none => rfl
    | some v => cases v <;> simp [Value.setComment]

theorem iniStep_kv_lookup (st : IniSt) (line rest : List Char)
    (hok : iniCurrentOk st = true)
    (h0 : ¬ (trimChars line).isEmpty = true)
    (h1 : ¬ (trimChars line).head? = some ';')
    (h2 : ¬ (trimChars line).head? = some '#')
    (hsec : iniSectionName (trimChars line) = none)
    (hk : ¬ ((trimChars line).takeWhile (fun c => !(c = '='))).isEmpty = true)
    (hdrop : (trimChars line).drop
        ((trimChars line).takeWhile (fun c => !(c = '='))).length = '=' :: rest) :
    iniCurrentLookup (iniStep st line)
        (String.mk (trimChars ((trimChars line).takeWhile (fun c => !(c = '='))))) =
      some (.vstr (String.mk (trimChars rest))) := by
  unfold iniStep
  rw [if_neg h0]
  rw [if_neg (by simp [h1, h2])]
  simp only [hsec, hdrop]
  rw [if_neg hk]
  have hassign : iniCurrentLookup
      (iniAssign st
        (String.mk (trimChars ((trimChars line).takeWhile (fun c => !(c = '=')))))
        (Value.vstr (String.mk (trimChars rest))))
      (String.mk (trimChars ((trimChars line).takeWhile (fun c => !(c = '='))))) =
      some (.vstr (String.mk (trimChars rest))) := by
    unfold iniCurrentLookup iniAssign
    unfold iniCurrentOk at hok
    cases hc : st.current with
    | none => simp [hc, alGet_alSet_self]
    | some name =>
      rw [hc] at hok
      simp only [hc]
      cases hg : alGet st.fields name with
      | none => simp only [hg] at hok; exact Bool.noConfusion hok
      | some v =>
        cases v with
        | vobj f c a =>
          rw [alGet_alModify_self, hg]
          simp [alGet_alSet_self]
        | vnull => simp only [hg] at hok; exact Bool.noConfusion hok
        | vbool b => simp only [hg] at hok; exact Bool.noConfusion hok
        | vnum l => simp only [hg] at hok; exact Bool.noConfusion hok
        | vstr s => simp only [hg] at hok; exact Bool.noConfusion hok
        | varr it c a m => simp only [hg] at hok; exact Bool.noConfusion hok
  set st1 := iniAssign st
    (String.mk (trimChars ((trimChars line).takeWhile (fun c => !(c = '=')))))
    (Value.vstr (String.mk (trimChars rest))) with hst1
  by_cases hp : st1.pending.isEmpty = true
  · rw [if_neg (show ¬((!st1.pending.isEmpty) = true) by simp [hp])]
    exact hassign
  · by_cases hd : st1.headerDone = true
    · rw [if_pos (show (!st1.pending.isEmpty) = true by simp [hp]),
        if_neg (show ¬((!st1.headerDone) = true) by simp [hd])]
      split
      · exact hassign
      · exact (iniCurrentLookup_setSectionComment _ _ _ _).trans hassign
    · rw [if_pos (show (!st1.pending.isEmpty) = true by simp [hp]),
        if_pos (show (!st1.headerDone) = true by simp [hd])]
      exact hassign

/-- C10: every leaf (non-section) value produced by the INI parser is a
string with no type coercion: (a) all leaves of `parseIni`'s result are
strings, for every input; (b) on any key=value line the loop splits at
the first `=`, trims both sides, and stores the right-hand side verbatim
as a string in the current section. -/
theorem iniParse_string_leaves :
    (forall input : String, iniLeafStr (parseIni input) = true) /\
    (forall (st : IniSt) (line rest : List Char),
      iniCurrentOk st = true →
      ¬ (trimChars line).isEmpty = true →
      ¬ (trimChars line).head? = some ';' →
      ¬ (trimChars line).head? = some '#' →
      iniSectionName (trimChars line) = none →
      ¬ ((trimChars line).takeWhile (fun c => !(c = '='))).isEmpty = true →
      (trimChars line).drop
          ((trimChars line).takeWhile (fun c => !(c = '='))).length = '=' :: rest →
      iniCurrentLookup (iniStep st line)
          (String.mk (trimChars ((trimChars line).takeWhile (fun c => !(c = '='))))) =
        some (.vstr (String.mk (trimChars rest)))) := by
  constructor
  · intro input
    have hfold := iniFold_preserves (splitLinesJs input.data) IniSt.init rfl
    simp only [parseIni]
    split
    · exact hfold
    · exact hfold
  · intro st line rest hok h0 h1 h2 hsec hk hdrop
    exact iniStep_kv_lookup st line rest hok h0 h1 h2 hsec hk hdrop

/-- Witness for C10: the key=value line ` answer = 42 ` stores the string
`"42"` under the key `answer`. -/
theorem iniParse_string_leaves_witness :
    iniCurrentLookup (iniStep IniSt.init " answer = 42 ".data)
        (String.mk (trimChars ((trimChars " answer = 42 ".data).takeWhile
          (fun c => !(c = '='))))) =
      some (.vstr (String.mk (trimChars " 42".data))) :=
  iniParse_string_leaves.2 IniSt.init " answer = 42 ".data " 42".data
    (by decide) (by decide) (by decide) (by decide) (by decide) (by decide) (by decide)

/-- C7: `IniPlugin.decode` succeeds exactly when the input has at least
one non-blank line and at least 80% of the non-blank lines match the
strict INI line grammar (section header, key=value pair, or comment
line); in particular arbitrary prose is rejected. -/
theorem iniDecode_compliance_guard :
    (forall input : String,
      (iniDecode input).isOk = true ↔
        ((splitLinesJs input.data).filter (fun l => !(trimChars l).isEmpty) ≠ [] /\
          4 * ((splitLinesJs input.data).filter (fun l => !(trimChars l).isEmpty)).length ≤
            5 * (((splitLinesJs input.data).filter (fun l => !(trimChars l).isEmpty)).filter
              iniLineCompliant).length)) /\
    (iniDecode "It was the best of times.\nIt was the worst of times.").isOk = false := by
  constructor
  · intro input
    unfold iniDecode
    by_cases hz : ((splitLinesJs input.data).filter
        (fun l => !(trimChars l).isEmpty)).length = 0
    · rw [if_pos hz]
      have hemp : (splitLinesJs input.data).filter (fun l => !(trimChars l).isEmpty) = [] :=
        List.length_eq_zero.mp hz
      constructor
      · intro h
        exact absurd h (by simp [Except.isOk, Except.toBool])
      · intro h
        exact absurd hemp h.1
    · rw [if_neg hz]
      by_cases hc : (((splitLinesJs input.data).filter
            (fun l => !(trimChars l).isEmpty)).filter iniLineCompliant).length * 5 <
          ((splitLinesJs input.data).filter (fun l => !(trimChars l).isEmpty)).length * 4
      · rw [if_pos hc]
        constructor
        · intro h
          exact absurd h (by simp [Except.isOk, Except.toBool])
        · intro h
          exact absurd h.2 (by omega)
      · rw [if_neg hc]
        constructor
        · intro _
          refine ⟨fun h => hz (by rw [h]; rfl), by omega⟩
        · intro _
          rfl
  · decide

/-- C1 exhibit: the INI plugin violates round-trip identity.  The input
`"[ ]"` is 100% compliant and decodes to a document with one
empty-named section; re-encoding emits `"[]\n"`, which the compliance
guard rejects (0% of its one non-blank line matches), so the second
decode throws instead of returning the same value tree. -/
theorem iniRoundTrip_fails :
    iniDecode "[ ]" =
      .ok ⟨[.vobj [("", .vobj [] [] [])] [] []], false, some "INI"⟩ /\
    iniEncode (.vobj [("", .vobj [] [] [])] [] []) = "[]\n" /\
    (iniDecode (iniEncode (.vobj [("", .vobj [] [] [])] [] []))).isOk = false := by
  refine ⟨rfl, by decide, by decide⟩

/-! ## Plugin detection (`utils.ts`: `sniffFormat`, `detectPlugin`) -/

/-- A format plugin as `detectPlugin` observes it: its name, its
`detect(filename, content)` predicate, and whether `decode(input)`
succeeds (the trial decode's result value is discarded by detection, so
only success/failure is modelled; the constant `parameters` context is
absorbed into `decodes`). -/
structure AqPlugin where
  name : String
  detect : Option String → Option String → Bool
  decodes : String → Bool

/-- JS `toUpperCase` (ASCII). -/
def upperStr (s : String) : String := String.mk (s.data.map Char.toUpper)

/-- A JS `\w` word character. -/
def isWordChar (c : Char) : Bool := c.isAlpha || c.isDigit || c = '_'

/-- The per-position test of `/^\w[\w-]*\s*:(?:\s|$)/m`: from a
line-start position, a word char, more word chars or dashes, optional
whitespace (which in a multiline regex may span newlines), a colon, then
whitespace or the end of a line/input.  Since `\s` contains the newline,
`(?:\s|$)` is "next char is whitespace or input ends". -/
def yamlKeyAt : List Char → Bool
  | [] => false
  | c :: rest =>
    isWordChar c &&
      (match (rest.dropWhile (fun d => isWordChar d || d = '-')).dropWhile isJsWS with
        | ':' :: r3 =>
          match r3 with
          | [] => true
          | d :: _ => isJsWS d
        | _ => false)

/-- A character of the TOML section-name class `[\w"'.-]`. -/
def tomlNameChar (c : Char) : Bool :=
  isWordChar c || c = '"' || c = '\'' || c = '.' || c = '-'

/-- The per-position test of `/^\[[\w"'.-]+\]\s*$/m`: from a line-start
position, `[`, a nonempty run of name characters, `]`, optional non-newline
whitespace, then the end of the line or of the input (a newline may also be
absorbed by `\s*` itself, which the `head? = '\n'` disjunct covers). -/
def tomlSectionAt : List Char → Bool
  | '[' :: rest =>
    let nm := rest.takeWhile tomlNameChar
    !nm.isEmpty &&
      (match rest.drop nm.length with
        | ']' :: r =>
          let r2 := r.dropWhile (fun c => isJsWS c && !(c = '\n'))
          r2.isEmpty || r2.head? = some '\n'
        | _ => false)
  | _ => false

/-- Does `p` hold at some line start (position 0 or right after a
newline)?  This is a multiline `^`-anchored regex test. -/
def existsLineStart (p : List Char → Bool) : List Char → Bool
  | [] => false
  | '\n' :: rest => p rest || existsLineStart p rest
  | _ :: rest => existsLineStart p rest

/-- A multiline regex test over the whole string: position 0 or any
position after a newline. -/
def multilineTest (p : List Char → Bool) (cs : List Char) : Bool :=
  p cs || existsLineStart p cs

/-- `sniffFormat` from `utils.ts`: guess the format from the first
non-whitespace characters. -/
def sniffFormat (input : String) : Option String :=
  let t := input.data.dropWhile isJsWS
  if t.head? = some '{' || t.head? = some '[' then some "JSON"
  else if t.head? = some '<' then some "XML"
  else if "---".data.isPrefixOf t || multilineTest yamlKeyAt t then some "YAML"
  else if multilineTest tomlSectionAt t then some "TOML"
  else none

/-- The observable outcome of `detectPlugin`: a chosen plugin, an
ambiguity report naming the candidates (the `console.error` path, which
returns no plugin), or no detection. -/
inductive DetectResult where
  | found (p : AqPlugin)
  | ambiguous (names : List String)
  | notFound

/-- The final `foundPlugins.length` dispatch of `detectPlugin`. -/
def detectFinish : List AqPlugin → DetectResult
  | [p] => .found p
  | [] => .notFound
  | l => .ambiguous (l.map (fun p => p.name))

/-- `detectPlugin` from `utils.ts`: filename/`detect` filter first; if it
found nothing and the content is truthy (a nonempty string), content-sniff
and use the sniffed plugin if its trial decode succeeds, else brute-force
trial-decode every plugin; finally use the result only if exactly one
plugin remains, reporting multiple candidates as an ambiguity. -/
def detectPlugin (plugins : List AqPlugin) (filename input : Option String) :
    DetectResult :=
  let found0 := plugins.filter (fun p => p.detect filename input)
  match input with
  | some s =>
    if found0.length = 0 && !(s = "") then
      match
        (match sniffFormat s with
          | some fmt =>
            match plugins.find? (fun p => upperStr p.name = upperStr fmt) with
            | some p => if p.decodes s then some p else none
            | none => none
          | none => none) with
      | some p => .found p
      | none => detectFinish (plugins.filter (fun p => p.decodes s))
    else detectFinish found0
  | none => detectFinish found0

/-- A probe plugin whose `detect` never fires and whose decode always
succeeds, used to exercise the detection algorithm at concrete inputs. -/
def probePlugin : AqPlugin :=
  ⟨"PROBE", fun _ _ => false, fun _ => true⟩

/-- A plugin named YAML that matches no filename and decodes anything,
used as a concrete witness input for the sniffing step. -/
def yamlProbePlugin : AqPlugin :=
  ⟨"YAML", fun _ _ => false, fun _ => true⟩

/-- C8 counterexample: with empty content, `detectPlugin` skips both the
content sniff and the brute-force step entirely, reporting no detection
even when exactly one plugin's decode would succeed — the claim's third
step says that plugin would be selected. -/
theorem detectPlugin_empty_content_counterexample :
    probePlugin.decodes "" = true ∧
    probePlugin.detect none (some "") = false ∧
    detectPlugin [probePlugin] none (some "") = .notFound ∧
    detectPlugin [probePlugin] none (some "") ≠ .found probePlugin := by
  refine ⟨rfl, rfl, rfl, fun h => ?_⟩
  exact DetectResult.noConfusion
    (show DetectResult.notFound = DetectResult.found probePlugin from h)

/-- C8 (amended): detection order for every plugin list and (filename,
content) pair.  (1) Plugins matched by `detect` take priority: exactly
one match selects it, several matches yield an ambiguity report naming
the candidates, and no sniffing or trial decoding happens.  (2) When no
plugin matched and the content is a nonempty string, the sniffed format's
plugin is selected iff its trial decode succeeds.  (3) Failing that,
every plugin's decode is tried: exactly one success selects it, zero or
several yield not-found or the ambiguity report. -/
theorem detectPlugin_detection_order :
    (forall (plugins : List AqPlugin) (filename input : Option String)
        (p : AqPlugin) (rest : List AqPlugin),
      plugins.filter (fun q => q.detect filename input) = p :: rest →
      detectPlugin plugins filename input =
        (if rest.isEmpty then .found p
         else .ambiguous ((p :: rest).map (fun q => q.name)))) /\
    (forall (plugins : List AqPlugin) (filename : Option String) (s fmt : String)
        (p : AqPlugin),
      plugins.filter (fun q => q.detect filename (some s)) = [] →
      ¬ s = "" →
      sniffFormat s = some fmt →
      plugins.find? (fun q => upperStr q.name = upperStr fmt) = some p →
      p.decodes s = true →
      detectPlugin plugins filename (some s) = .found p) /\
    (forall (plugins : List AqPlugin) (filename : Option String) (s : String),
      plugins.filter (fun q => q.detect filename (some s)) = [] →
      ¬ s = "" →
      (match sniffFormat s with
        | none => True
        | some fmt =>
          match plugins.find? (fun q => upperStr q.name = upperStr fmt) with
          | none => True
          | some p => p.decodes s = false) →
      detectPlugin plugins filename (some s) =
        detectFinish (plugins.filter (fun q => q.decodes s))) /\
    (forall (p q : AqPlugin) (rest : List AqPlugin),
      detectFinish [p] = .found p ∧
      detectFinish ([] : List AqPlugin) = .notFound ∧
      detectFinish (p :: q :: rest) =
        .ambiguous ((p :: q :: rest).map (fun r => r.name)))
    := by
  refine ⟨?_, ?_, ?_, ?_⟩
  · intro plugins filename input p rest hfilter
    cases input with
    | none =>
      simp only [detectPlugin, hfilter]
      cases rest with
      | nil => rfl
      | cons q t => rfl
    | some s =>
      simp only [detectPlugin, hfilter, List.length_cons]
      rw [if_neg (by simp)]
      cases rest with
      | nil => rfl
      | cons q t => rfl
  · intro plugins filename s fmt p hfilter hs hsniff hfind hdec
    simp only [detectPlugin, hfilter, List.length_nil]
    rw [if_pos (by simp [hs])]
    simp only [hsniff, hfind]
    rw [hdec]
    rfl
  · intro plugins filename s hfilter hs hfail
    simp only [detectPlugin, hfilter, List.length_nil]
    rw [if_pos (by simp [hs])]
    cases hsniff : sniffFormat s with
    | none => rfl
    | some fmt =>
      rw [hsniff] at hfail
      cases hfind : plugins.find? (fun q => upperStr q.name = upperStr fmt) with
      | none =>
        simp only [hfind]
      | some p =>
        simp only [hfind] at hfail
        simp only [hfind]
        rw [hfail]
        rfl
  · intro p q rest
    exact ⟨rfl, rfl, rfl⟩

/-- Witness for C8: the sniff step on `"key: 1"` selects the plugin
named YAML after its trial decode succeeds. -/
theorem detectPlugin_detection_order_witness :
    detectPlugin [yamlProbePlugin] none (some "key: 1") = .found yamlProbePlugin :=
  detectPlugin_detection_order.2.1 [yamlProbePlugin] none "key: 1" "YAML"
    yamlProbePlugin rfl (by decide) rfl rfl rfl

/-! ## Strict JSON.parse model (the ECMAScript builtin used by the YAML
plugin's guard), on ASCII input -/

/-- ECMAScript JSON whitespace. -/
def jsonWS (c : Char) : Bool := c = ' ' || c = '\t' || c = '\n' || c = '\r'

/-- Skip JSON whitespace. -/
def jpSkipWS (cs : List Char) : List Char := cs.dropWhile jsonWS

/-- Hex digit value. -/
def hexVal (c : Char) : Option Nat :=
  if c.isDigit then some (c.toNat - 48)
  else if 'a' ≤ c && c ≤ 'f' then some (c.toNat - 87)
  else if 'A' ≤ c && c ≤ 'F' then some (c.toNat - 55)
  else none

/-- The strict JSON string body scanner (after the opening quote):
escapes, `\uXXXX`, no raw control characters. -/
def jpStringLoop : List Char → List Char → Option (String × List Char)
  | [], _ => none
  | '"' :: rest, acc => some (String.mk acc.reverse, rest)
  | '\\' :: esc, acc =>
    (match esc with
      | '"' :: r => jpStringLoop r ('"' :: acc)
      | '\\' :: r => jpStringLoop r ('\\' :: acc)
      | '/' :: r => jpStringLoop r ('/' :: acc)
      | 'b' :: r => jpStringLoop r ('\x08' :: acc)
      | 'f' :: r => jpStringLoop r ('\x0c' :: acc)
      | 'n' :: r => jpStringLoop r ('\n' :: acc)
      | 'r' :: r => jpStringLoop r ('\r' :: acc)
      | 't' :: r => jpStringLoop r ('\t' :: acc)
      | 'u' :: h1 :: h2 :: h3 :: h4 :: r =>
        (match hexVal h1, hexVal h2, hexVal h3, hexVal h4 with
          | some a, some b, some c, some d =>
            jpStringLoop r (Char.ofNat (a * 4096 + b * 256 + c * 16 + d) :: acc)
          | _, _, _, _ => none)
      | _ => none)
  | c :: rest, acc => if c.toNat < 32 then none else jpStringLoop rest (c :: acc)

/-- Exponent part of a strict JSON number. -/
def jpNumExp (acc : String) (r : List Char) : Option (String × List Char) :=
  match r with
  | c :: r2 =>
    if c = 'e' || c = 'E' then
      let (sgn, r3) :=
        match r2 with
        | '+' :: rr => ("+", rr)
        | '-' :: rr => ("-", rr)
        | _ => ("", r2)
      let ds := r3.takeWhile Char.isDigit
      if ds.isEmpty then none
      else some (acc ++ String.singleton c ++ sgn ++ String.mk ds, r3.drop ds.length)
    else some (acc, c :: r2)
  | [] => some (acc, [])

/-- Fraction and exponent parts of a strict JSON number. -/
def jpNumTail (acc : String) (r1 : List Char) : Option (String × List Char) :=
  match r1 with
  | '.' :: r =>
    let ds := r.takeWhile Char.isDigit
    if ds.isEmpty then none
    else jpNumExp (acc ++ "." ++ String.mk ds) (r.drop ds.length)
  | _ => jpNumExp acc r1

/-- A strict JSON number lexeme: `-?(0|[1-9][0-9]*)(\.[0-9]+)?([eE][+-]?[0-9]+)?`. -/
def jpNumber (cs : List Char) : Option (String × List Char) :=
  let (sign, cs1) :=
    match cs with
    | '-' :: r => ("-", r)
    | _ => ("", cs)
  match cs1 with
  | [] => none
  | '0' :: r1 => jpNumTail (sign ++ "0") r1
  | c :: _ =>
    if c.isDigit then
      jpNumTail (sign ++ String.mk (cs1.takeWhile Char.isDigit))
        (cs1.dropWhile Char.isDigit)
    else none

mutual

/-- A strict JSON value (fuel-indexed recursive descent). -/
def jpValue : Nat → List Char → Option (Value × List Char)
  | 0, _ => none
  | fuel + 1, cs =>
    match cs with
    | '{' :: rest => jpObjectStart fuel (jpSkipWS rest)
    | '[' :: rest => jpArrayStart fuel (jpSkipWS rest)
    | '"' :: rest => (jpStringLoop rest []).map (fun p => (Value.vstr p.1, p.2))
    | 't' :: _ =>
      if "true".data.isPrefixOf cs then some (.vbool true, cs.drop 4) else none
    | 'f' :: _ =>
      if "false".data.isPrefixOf cs then some (.vbool false, cs.drop 5) else none
    | 'n' :: _ =>
      if "null".data.isPrefixOf cs then some (.vnull, cs.drop 4) else none
    | c :: _ =>
      if c = '-' || c.isDigit then
        (jpNumber cs).map (fun p => (Value.vnum p.1, p.2))
      else none
    | [] => none

/-- Strict JSON object body, right after `{` and whitespace. -/
def jpObjectStart : Nat → List Char → Option (Value × List Char)
  | 0, _ => none
  | fuel + 1, cs =>
    match cs with
    | '}' :: rest => some (.vobj [] [] [], rest)
    | _ => jpObjectLoop fuel cs []

/-- Strict JSON object member loop. -/
def jpObjectLoop : Nat → List Char → List (String × Value) →
    Option (Value × List Char)
  | 0, _, _ => none
  | fuel + 1, cs, acc =>
    match cs with
    | '"' :: rest =>
      (match jpStringLoop rest [] with
        | some (key, r1) =>
          (match jpSkipWS r1 with
            | ':' :: r2 =>
              (match jpValue fuel (jpSkipWS r2) with
                | some (v, r3) =>
                  (match jpSkipWS r3 with
                    | ',' :: r4 => jpObjectLoop fuel (jpSkipWS r4) (alSet acc key v)
                    | '}' :: r4 => some (.vobj (alSet acc key v) [] [], r4)
                    | _ => none)
                | none => none)
            | _ => none)
        | none => none)
    | _ => none

/-- Strict JSON array body, right after `[` and whitespace. -/
def jpArrayStart : Nat → List Char → Option (Value × List Char)
  | 0, _ => none
  | fuel + 1, cs =>
    match cs with
    | ']' :: rest => some (.varr [] [] [] false, rest)
    | _ => jpArrayLoop fuel cs []

/-- Strict JSON array element loop. -/
def jpArrayLoop : Nat → List Char → List Value → Option (Value × List Char)
  | 0, _, _ => none
  | fuel + 1, cs, acc =>
    match jpValue fuel cs with
    | some (v, r1) =>
      (match jpSkipWS r1 with
        | ',' :: r2 => jpArrayLoop fuel (jpSkipWS r2) (acc ++ [v])
        | ']' :: r2 => some (.varr (acc ++ [v]) [] [] false, r2)
        | _ => none)
    | none => none

end

/-- `JSON.parse` modelled for ASCII input: a strict JSON document with
nothing but whitespace after the value. -/
def strictJsonParse (input : String) : Option Value :=
  match jpValue (input.data.length + 1) (jpSkipWS input.data) with
  | some (v, rest) => if (jpSkipWS rest).isEmpty then some v else none
  | none => none

/-! ## YAML plugin (`plugins/yamlPlugin.ts`) over a model of the external
`npm:yaml` AST -/

mutual

/-- The `npm:yaml` AST surface the plugin walks: scalars (carrying their
JS value, optional `&anchor`, trailing `comment`, and `commentBefore`),
aliases (`*source`), maps and sequences (with `commentBefore`, trailing
`comment` and optional anchor). -/
inductive YNode where
  | yscalar (value : Value) (anchor : Option String) (comment : Option String)
      (commentBefore : Option String)
  | yalias (source : String)
  | ymap (commentBefore : Option String) (comment : Option String)
      (anchor : Option String) (items : List YPair)
  | yseq (commentBefore : Option String) (comment : Option String)
      (anchor : Option String) (items : List YNode)

/-- A map pair: the key scalar's stringified value and `commentBefore`,
and the value node. -/
inductive YPair where
  | mk (keyStr : String) (keyCommentBefore : Option String) (value : YNode)

end

/-- A parsed `npm:yaml` `Document`: `commentBefore`, trailing `comment`,
and contents. -/
structure YDocument where
  commentBefore : Option String
  comment : Option String
  contents : YNode

/-- `norm` from `yamlPlugin.ts`: trim each comment line, drop leading
empty lines, `null` when nothing remains. -/
def normComment : Option String → Option String
  | none => none
  | some text =>
    let lines := (splitNl text).map (fun l => String.mk (trimChars l.data))
    let lines2 := lines.dropWhile (fun l => l.length = 0)
    if lines2.isEmpty then none else some (joinSep "\n" lines2)

/-- `toAst` from `yamlPlugin.ts`: prefix each nonempty line with a space. -/
def toAstComment (text : String) : String :=
  joinSep "\n" ((splitNl text).map (fun l => if l.length > 0 then " " ++ l else l))

/-- Field lookup `obj[keyStr]` on an object value. -/
def Value.objGet (v : Value) (k : String) : Option Value :=
  match v with
  | .vobj f _ _ => alGet f k
  | _ => none

/-- Field update through an object reference (`obj[keyStr]` mutated in
place). -/
def Value.objSet (v : Value) (k : String) (w : Value) : Value :=
  match v with
  | .vobj f cm am => .vobj (alSet f k w) cm am
  | other => other

/-- `delete comments[key]` on a value's comment map. -/
def Value.delComment (v : Value) (k : String) : Value :=
  match v with
  | .vobj f cm am => .vobj f (alDel cm k) am
  | .varr it cm am md => .varr it (alDel cm k) am md
  | other => other

/-- The anchor name carried by an AST node (`"anchor" in node && node.anchor`,
with the empty string falsy). -/
def ynodeAnchor : YNode → Option String
  | .yscalar _ a _ _ => truthy a
  | .ymap _ _ a _ => truthy a
  | .yseq _ _ a _ => truthy a
  | .yalias _ => none

/-- Is the AST node a scalar (`isScalar`)?  -/
def ynodeIsScalar : YNode → Bool
  | .yscalar .. => true
  | _ => false

/-- Set a scalar node's trailing comment. -/
def ynodeSetComment (n : YNode) (c : String) : YNode :=
  match n with
  | .yscalar v a _ cb => .yscalar v a (some c) cb
  | other => other

/-- Set an AST node's anchor (`node.anchor = name`). -/
def ynodeSetAnchor (n : YNode) (a : String) : YNode :=
  match n with
  | .yscalar v _ c cb => .yscalar v (some a) c cb
  | .ymap cb c _ it => .ymap cb c (some a) it
  | .yseq cb c _ it => .yseq cb c (some a) it
  | .yalias s => .yalias s

mutual

/-- `extractCommentsFromNode` from `yamlPlugin.ts`: walk the AST node and
the JS value in lockstep, attaching per-key comments (fuel-indexed; the
claims only exercise inputs of bounded depth). -/
def extractCommentsFromNode : Nat → YNode → Value → Value
  | 0, _, v => v
  | fuel + 1, node, v =>
    if !v.isComposite then v
    else
      match node with
      | .ymap cb cmt _ items =>
        let v1 := ecfnPairs fuel (normComment cb) items 0 v
        (match normComment cmt with
          | some t =>
            v1.setComment "#" ⟨(v1.getComment "#").bind (fun e => e.before), some t⟩
          | none => v1)
      | .yseq cb cmt _ items =>
        let v1 := ecfnSeq fuel (normComment cb) items 0 v
        (match normComment cmt with
          | some t =>
            v1.setComment "#" ⟨(v1.getComment "#").bind (fun e => e.before), some t⟩
          | none => v1)
      | _ => v

/-- The map-pair loop of `extractCommentsFromNode`. -/
def ecfnPairs : Nat → Option String → List YPair → Nat → Value → Value
  | 0, _, _, _, v => v
  | _ + 1, _, [], _, v => v
  | fuel + 1, containerBefore, ⟨keyStr, keyCB, valNode⟩ :: rest, i, v =>
    let base := if i = 0 then containerBefore else none
    let keyBefore := normComment keyCB
    let entryBefore :=
      match base, keyBefore with
      | some b, some k => some (b ++ "\n" ++ k)
      | some b, none => some b
      | none, some k => some k
      | none, none => none
    let entryAfter :=
      match valNode with
      | .yscalar _ _ cmt _ => normComment cmt
      | _ => none
    let v1 :=
      if entryBefore.isSome || entryAfter.isSome then
        v.setComment keyStr ⟨entryBefore, entryAfter⟩
      else v
    let v2 :=
      match v1.objGet keyStr with
      | some child =>
        if child.isComposite then
          v1.objSet keyStr (extractCommentsFromNode fuel valNode child)
        else v1
      | none => v1
    ecfnPairs fuel containerBefore rest (i + 1) v2

/-- The sequence-item loop of `extractCommentsFromNode`. -/
def ecfnSeq : Nat → Option String → List YNode → Nat → Value → Value
  | 0, _, _, _, v => v
  | _ + 1, _, [], _, v => v
  | fuel + 1, containerBefore, item :: rest, i, v =>
    let base := if i = 0 then containerBefore else none
    let itemBefore :=
      match item with
      | .yscalar _ _ _ cb => normComment cb
      | .ymap cb _ _ _ => normComment cb
      | .yseq cb _ _ _ => normComment cb
      | .yalias _ => none
    let entryBefore :=
      match base, itemBefore with
      | some b, some k => some (b ++ "\n" ++ k)
      | some b, none => some b
      | none, some k => some k
      | none, none => none
    let v1 :=
      if entryBefore.isSome then v.setComment (toString i) ⟨entryBefore, none⟩
      else v
    let v2 :=
      match v1 with
      | .varr its cm am md =>
        (match its.get? i with
          | some child =>
            if child.isComposite then
              .varr (its.set i (extractCommentsFromNode fuel item child)) cm am md
            else v1
          | none => v1)
      | _ => v1
    ecfnSeq fuel containerBefore rest (i + 1) v2

end

/-- `extractDocComments` from `yamlPlugin.ts`: per-key extraction, then
document-level header handling with the single-document header promotion
and its first-key deduplication, then the trailing comment. -/
def extractDocComments (fuel : Nat) (doc : YDocument) (v : Value) : Value :=
  if !v.isComposite then v
  else
    let v1 := extractCommentsFromNode fuel doc.contents v
    let docBefore := normComment doc.commentBefore
    let v2 :=
      match docBefore with
      | some t => v1.setComment "#" ⟨some t, (v1.getComment "#").bind (fun e => e.after)⟩
      | none => v1
    let v3 :=
      if docBefore.isNone then
        match doc.contents with
        | .ymap cb _ _ (⟨firstKeyStr, firstKeyCB, _⟩ :: _) =>
          let containerBefore := normComment cb
          let firstKeyBefore := normComment firstKeyCB
          (match containerBefore.orElse (fun _ => firstKeyBefore) with
            | some headerText =>
              let v2a := v2.setComment "#"
                ⟨some headerText, (v2.getComment "#").bind (fun e => e.after)⟩
              (match (v2a.getComment firstKeyStr).bind (fun e => e.before) with
                | some fkb =>
                  let remaining : Option String :=
                    if fkb = headerText then none
                    else if (headerText ++ "\n").data.isPrefixOf fkb.data then
                      some (String.mk (fkb.data.drop (headerText.data.length + 1)))
                    else some fkb
                  let remaining := truthy remaining
                  let fkAfter := (v2a.getComment firstKeyStr).bind (fun e => e.after)
                  if remaining.isSome || fkAfter.isSome then
                    v2a.setComment firstKeyStr ⟨remaining, fkAfter⟩
                  else v2a.delComment firstKeyStr
                | none => v2a)
            | none => v2)
        | _ => v2
      else v2
    match normComment doc.comment with
    | some t => v3.setComment "#" ⟨(v3.getComment "#").bind (fun e => e.before), some t⟩
    | none => v3

mutual

/-- `extractAnchorsFromNode` from `yamlPlugin.ts`. -/
def extractAnchorsFromNode : Nat → YNode → Value → Value
  | 0, _, v => v
  | fuel + 1, node, v =>
    if !v.isComposite then v
    else
      match node with
      | .ymap _ _ _ items => eafnPairs fuel items v
      | .yseq _ _ _ items => eafnSeq fuel items 0 v
      | _ => v

/-- The map-pair loop of `extractAnchorsFromNode`. -/
def eafnPairs : Nat → List YPair → Value → Value
  | 0, _, v => v
  | _ + 1, [], v => v
  | fuel + 1, ⟨keyStr, _, valNode⟩ :: rest, v =>
    let v2 :=
      match valNode with
      | .yalias src => v.setAnchor keyStr ⟨none, some src⟩
      | _ =>
        let v1 :=
          match ynodeAnchor valNode with
          | some a => v.setAnchor keyStr ⟨some a, none⟩
          | none => v
        (match v1.objGet keyStr with
          | some child =>
            if child.isComposite then
              v1.objSet keyStr (extractAnchorsFromNode fuel valNode child)
            else v1
          | none => v1)
    eafnPairs fuel rest v2

/-- The sequence-item loop of `extractAnchorsFromNode`. -/
def eafnSeq : Nat → List YNode → Nat → Value → Value
  | 0, _, _, v => v
  | _ + 1, [], _, v => v
  | fuel + 1, item :: rest, i, v =>
    let v2 :=
      match item with
      | .yalias src => v.setAnchor (toString i) ⟨none, some src⟩
      | _ =>
        let v1 :=
          match ynodeAnchor item with
          | some a => v.setAnchor (toString i) ⟨some a, none⟩
          | none => v
        (match v1 with
          | .varr its cm am md =>
            (match its.get? i with
              | some child =>
                if child.isComposite then
                  .varr (its.set i (extractAnchorsFromNode fuel item child)) cm am md
                else v1
              | none => v1)
          | _ => v1)
    eafnSeq fuel rest (i + 1) v2

end

mutual

/-- `applyAnchorsToNode` from `yamlPlugin.ts`: replace alias slots by
alias nodes and set anchor names on anchor slots. -/
def applyAnchorsToNode : Nat → YNode → Value → YNode
  | 0, node, _ => node
  | fuel + 1, node, v =>
    if !v.isComposite then node
    else
      match node with
      | .ymap cb cmt a items => .ymap cb cmt a (aanPairs fuel (v.getAnchors) v items)
      | .yseq cb cmt a items => .yseq cb cmt a (aanSeq fuel (v.getAnchors) v items 0)
      | other => other

/-- The map-pair loop of `applyAnchorsToNode`. -/
def aanPairs : Nat → Option (List (String × AnchorEntry)) → Value →
    List YPair → List YPair
  | 0, _, _, items => items
  | _ + 1, _, _, [] => []
  | fuel + 1, anchorMap, v, ⟨keyStr, kcb, valNode⟩ :: rest =>
    let entry := anchorMap.bind (fun m => alGet m keyStr)
    let newVal :=
      match truthy (entry.bind (fun e => e.aliasName)) with
      | some src => YNode.yalias src
      | none =>
        let val1 :=
          match truthy (entry.bind (fun e => e.anchor)) with
          | some a => ynodeSetAnchor valNode a
          | none => valNode
        (match v.objGet keyStr with
          | some child =>
            if child.isComposite then applyAnchorsToNode fuel val1 child else val1
          | none => val1)
    ⟨keyStr, kcb, newVal⟩ :: aanPairs fuel anchorMap v rest

/-- The sequence-item loop of `applyAnchorsToNode`. -/
def aanSeq : Nat → Option (List (String × AnchorEntry)) → Value →
    List YNode → Nat → List YNode
  | 0, _, _, items, _ => items
  | _ + 1, _, _, [], _ => []
  | fuel + 1, anchorMap, v, item :: rest, i =>
    let entry := anchorMap.bind (fun m => alGet m (toString i))
    let newItem :=
      match truthy (entry.bind (fun e => e.aliasName)) with
      | some src => YNode.yalias src
      | none =>
        let it1 :=
          match truthy (entry.bind (fun e => e.anchor)) with
          | some a => ynodeSetAnchor item a
          | none => item
        (match v with
          | .varr its _ _ _ =>
            (match its.get? i with
              | some child =>
                if child.isComposite then applyAnchorsToNode fuel it1 child else it1
              | none => it1)
          | _ => it1)
    newItem :: aanSeq fuel anchorMap v rest (i + 1)

end

mutual

/-- `attachCommentsToNode` from `yamlPlugin.ts`: write comments from the
value's comment map back onto the AST (the reverse of extraction). -/
def attachCommentsToNode : Nat → YNode → Value → Bool → YNode
  | 0, node, _, _ => node
  | fuel + 1, node, v, isRoot =>
    if !v.isComposite then node
    else
      match node with
      | .ymap cb cmt a items =>
        let (items1, cb1) := acnPairs fuel v isRoot items 0 cb
        let cmt1 :=
          if !isRoot && v.hasComments then
            match truthy ((v.getComment "#").bind (fun e => e.after)) with
            | some t => some (toAstComment t)
            | none => cmt
          else cmt
        .ymap cb1 cmt1 a items1
      | .yseq cb cmt a items =>
        let (items1, cb1) := acnSeq fuel v items 0 cb
        let cmt1 :=
          if v.hasComments then
            match truthy ((v.getComment "#").bind (fun e => e.after)) with
            | some t => some (toAstComment t)
            | none => cmt
          else cmt
        .yseq cb1 cmt1 a items1
      | other => other

/-- The map-pair loop of `attachCommentsToNode`: returns the rewritten
pairs and the map's possibly updated `commentBefore`. -/
def acnPairs : Nat → Value → Bool → List YPair → Nat → Option String →
    List YPair × Option String
  | 0, _, _, items, _, mapCB => (items, mapCB)
  | _ + 1, _, _, [], _, mapCB => ([], mapCB)
  | fuel + 1, v, isRoot, ⟨keyStr, kcb, valNode⟩ :: rest, i, mapCB =>
    let comment := if v.hasComments then v.getComment keyStr else none
    let (mapCB1, kcb1) :=
      match truthy (comment.bind (fun e => e.before)) with
      | some b =>
        if i = 0 && !isRoot then (some (toAstComment b), kcb)
        else if i > 0 then (mapCB, some (toAstComment b))
        else (mapCB, kcb)
      | none => (mapCB, kcb)
    let val1 :=
      match truthy (comment.bind (fun e => e.after)) with
      | some aft => if ynodeIsScalar valNode then ynodeSetComment valNode (toAstComment aft) else valNode
      | none => valNode
    let val2 :=
      match v.objGet keyStr with
      | some child =>
        if child.isComposite then attachCommentsToNode fuel val1 child false else val1
      | none => val1
    let (restPairs, mapCB2) := acnPairs fuel v isRoot rest (i + 1) mapCB1
    (⟨keyStr, kcb1, val2⟩ :: restPairs, mapCB2)

/-- The sequence-item loop of `attachCommentsToNode`. -/
def acnSeq : Nat → Value → List YNode → Nat → Option String →
    List YNode × Option String
  | 0, _, items, _, seqCB => (items, seqCB)
  | _ + 1, _, [], _, seqCB => ([], seqCB)
  | fuel + 1, v, item :: rest, i, seqCB =>
    let comment := if v.hasComments then v.getComment (toString i) else none
    let (seqCB1, item1) :=
      match truthy (comment.bind (fun e => e.before)) with
      | some b =>
        if i = 0 then (some (toAstComment b), item)
        else
          (seqCB,
            match item with
            | .yscalar w a c _ => .yscalar w a c (some (toAstComment b))
            | .ymap _ c a its => .ymap (some (toAstComment b)) c a its
            | .yseq _ c a its => .yseq (some (toAstComment b)) c a its
            | .yalias s => .yalias s)
      | none => (seqCB, item)
    let item2 :=
      match v with
      | .varr its _ _ _ =>
        (match its.get? i with
          | some child =>
            if child.isComposite then attachCommentsToNode fuel item1 child false
            else item1
          | none => item1)
      | _ => item1
    let (restItems, seqCB2) := acnSeq fuel v rest (i + 1) seqCB1
    (item2 :: restItems, seqCB2)

end

/-- `attachDocComments` from `yamlPlugin.ts`: the container's `before`
goes on the first pair's key `commentBefore`, the container's `after` on
the document comment, then per-key attachment with `isRoot = true`. -/
def attachDocComments (fuel : Nat) (doc : YDocument) (v : Value) : YDocument :=
  if !v.isComposite then doc
  else
    let containerComment := v.getComment "#"
    let contents1 :=
      match truthy (containerComment.bind (fun e => e.before)), doc.contents with
      | some b, .ymap cb cmt a (⟨k0, _, v0⟩ :: rest) =>
        .ymap cb cmt a (⟨k0, some (toAstComment b), v0⟩ :: rest)
      | _, c => c
    let docComment :=
      match truthy (containerComment.bind (fun e => e.after)) with
      | some aft => some (toAstComment aft)
      | none => doc.comment
    ⟨doc.commentBefore, docComment, attachCommentsToNode fuel contents1 v true⟩

/-! ### The external `npm:yaml` library, modelled from the spec for the
flat-document fragment the claims exercise -/

/-- Modelled from the spec: the scalar-line parser of `parseAllDocuments`
for one `key: value` entry.  `&name value` carries an anchor, `*name` is
an alias, `value # text` carries a trailing comment; scalar values stay
strings. -/
def yamlParseEntry (keyCB : Option String) (line : List Char) : YPair :=
  let t := trimChars line
  let key := String.mk (trimChars (t.takeWhile (fun c => !(c = ':'))))
  let rest0 := (t.dropWhile (fun c => !(c = ':'))).drop 1
  let (body, cmt) :=
    match findUnquotedMarkerAux "#".data rest0 none false false 0 with
    | .ofNat i =>
      (trimChars (rest0.take i),
        some (String.mk ((rest0.drop i).drop 1)))
    | _ => (trimChars rest0, none)
  match body with
  | '&' :: r =>
    let aname := r.takeWhile (fun c => !(isJsWS c))
    let sval := trimChars (r.drop aname.length)
    ⟨key, keyCB, .yscalar (.vstr (String.mk sval)) (some (String.mk aname)) cmt none⟩
  | '*' :: r => ⟨key, keyCB, .yalias (String.mk r)⟩
  | _ => ⟨key, keyCB, .yscalar (.vstr (String.mk body)) none cmt none⟩

/-- Modelled from the spec: `parseAllDocuments` of the `npm:yaml`
library, restricted to the fragment the claims exercise: one document of
flat `key: value` scalar entries, optional leading full-line `#`
comments (attached by the library to the first key's `commentBefore`,
each line keeping its text after the `#`), `&name` anchors and `*name`
aliases, and `#` trailing comments on entry lines. -/
def yamlParseFlat (input : String) : YDocument :=
  let lines := (splitLinesJs input.data).filter (fun l => !(trimChars l).isEmpty)
  let headerLines := lines.takeWhile (fun l => (trimChars l).head? = some '#')
  let entryLines := lines.drop headerLines.length
  let headerCB : Option String :=
    if headerLines.isEmpty then none
    else some (joinSep "\n" (headerLines.map (fun l =>
      String.mk ((trimChars l).drop 1))))
  let pairs :=
    match entryLines with
    | [] => []
    | first :: more =>
      yamlParseEntry headerCB first :: more.map (yamlParseEntry none)
  ⟨none, none, .ymap none none none pairs⟩

/-- Modelled from the spec: `doc.toJS()` with alias resolution — an
anchored node's value is reused by later `*name` aliases. -/
def ytoJSPairs : List YPair → List (String × Value) → List (String × Value) →
    List (String × Value)
  | [], _, acc => acc.reverse
  | ⟨k, _, .yscalar w a _ _⟩ :: rest, env, acc =>
    let env1 := match a with
      | some nm => (nm, w) :: env
      | none => env
    ytoJSPairs rest env1 ((k, w) :: acc)
  | ⟨k, _, .yalias src⟩ :: rest, env, acc =>
    ytoJSPairs rest env ((k, (alGet env src).getD .vnull) :: acc)
  | ⟨k, _, _⟩ :: rest, env, acc =>
    ytoJSPairs rest env ((k, .vnull) :: acc)

/-- Modelled from the spec: `doc.toJS()` on a flat document. -/
def ytoJS (doc : YDocument) : Value :=
  match doc.contents with
  | .ymap _ _ _ items => .vobj (ytoJSPairs items [] []) [] []
  | .yscalar w _ _ _ => w
  | _ => .vnull

/-- Modelled from the spec: `new Document(data)` — a fresh AST from a
plain value, without comments or anchors (flat fragment). -/
def jsToYNode : Nat → Value → YNode
  | 0, _ => .yscalar .vnull none none none
  | fuel + 1, v =>
    match v with
    | .vobj f _ _ =>
      .ymap none none none (f.map (fun p => ⟨p.1, none, jsToYNode fuel p.2⟩))
    | .varr it _ _ _ => .yseq none none none (it.map (jsToYNode fuel))
    | w => .yscalar w none none none

/-- Modelled from the spec: the scalar text `Document.toString` emits. -/
def yScalarText : Value → String
  | .vstr s => s
  | .vnum l => l
  | .vbool b => cond b "true" "false"
  | .vnull => "null"
  | _ => ""

/-- Modelled from the spec: render a `commentBefore`/`comment` string as
`#`-prefixed source lines. -/
def yCommentOut (text : String) : List String :=
  (splitNl text).map (fun l => "#" ++ l)

/-- Modelled from the spec: `Document.toString` for the flat fragment. -/
def emitFlatDoc (doc : YDocument) : String :=
  match doc.contents with
  | .ymap mapCB _ _ items =>
    let headerLines := match mapCB with
      | some t => yCommentOut t
      | none => []
    let entryLines := items.flatMap (fun p =>
      match p with
      | ⟨k, kcb, valNode⟩ =>
        (match kcb with
          | some t => yCommentOut t
          | none => []) ++
        [k ++ ": " ++
          (match valNode with
            | .yscalar w a cmt _ =>
              (match a with
                | some nm => "&" ++ nm ++ " "
                | none => "") ++ yScalarText w ++
              (match cmt with
                | some t => " #" ++ t
                | none => "")
            | .yalias src => "*" ++ src
            | _ => "")])
    let trailLines := match doc.comment with
      | some t => yCommentOut t
      | none => []
    joinSep "\n" (headerLines ++ entryLines ++ trailLines) ++ "\n"
  | .yscalar w _ _ _ => yScalarText w ++ "\n"
  | _ => "null\n"

/-- `YamlPlugin.decode`: the JSON guard, then parse, `toJS`, and the
comment/anchor extraction walks (single-document fragment; fuel 8 covers
the flat maps the modelled parser produces). -/
def yamlDecode (input : String) : Except String ParsedData :=
  match strictJsonParse input with
  | some parsedAsJson =>
    if parsedAsJson.isComposite then
      .error "I don't recognize YAML as a superset of JSON. Please use JSON parser instead."
    else
      yamlDecodeBody input
  | none => yamlDecodeBody input

where
  yamlDecodeBody (input : String) : Except String ParsedData :=
    let doc := yamlParseFlat input
    let jsv := ytoJS doc
    let jsv1 :=
      if jsv.isComposite then
        extractAnchorsFromNode 8 doc.contents (extractDocComments 8 doc jsv)
      else jsv
    .ok ⟨[jsv1], false, some "YAML"⟩

/-- `YamlPlugin.encode` for a single document: fresh AST, comment
re-attachment, anchor re-application, serialization. -/
def yamlEncodeDoc (item : Value) : String :=
  let doc0 : YDocument := ⟨none, none, jsToYNode 8 item⟩
  let doc1 := attachDocComments 8 doc0 item
  let contents := applyAnchorsToNode 8 doc1.contents item
  emitFlatDoc ⟨doc1.commentBefore, doc1.comment, contents⟩

/-- `YamlPlugin.encode`: the multi-document marker selects the
`---`-joined per-document rendering. -/
def yamlEncode (data : Value) : String :=
  match data with
  | .varr items _ _ true => joinSep "---\n" (items.map yamlEncodeDoc)
  | d => yamlEncodeDoc d

/-- Number of occurrences of `pat` as a substring (by start position). -/
def countOccur (pat cs : List Char) : Nat :=
  ((List.range cs.length).filter (fun i => pat.isPrefixOf (cs.drop i))).length

/-- C9: for every input that `JSON.parse` accepts as a non-null object
or array, `YamlPlugin.decode` throws the "use JSON parser instead" error
instead of decoding it as YAML. -/
theorem yamlDecode_rejects_json_input (input : String) (v : Value)
    (h1 : strictJsonParse input = some v) (h2 : v.isComposite = true) :
    yamlDecode input =
      .error "I don't recognize YAML as a superset of JSON. Please use JSON parser instead." := by
  unfold yamlDecode
  simp only [h1]
  rw [if_pos h2]

/-- Witness for C9: `"[0]"` parses as a JSON array, so the YAML plugin
rejects it. -/
theorem yamlDecode_rejects_json_input_witness :
    yamlDecode "[0]" =
      .error "I don't recognize YAML as a superset of JSON. Please use JSON parser instead." :=
  yamlDecode_rejects_json_input "[0]" (.varr [.vnum "0"] [] [] false) rfl rfl

/-- The document decoded from `img: &a val` / `ref: *a`. -/
def anchorDocOne : Value :=
  .vobj [("img", .vstr "val"), ("ref", .vstr "val")] []
    [("img", ⟨some "a", none⟩), ("ref", ⟨none, some "a"⟩)]

/-- The document decoded from `img: &a val` / `ref: *a` / `ref2: *a`. -/
def anchorDocTwo : Value :=
  .vobj [("img", .vstr "val"), ("ref", .vstr "val"), ("ref2", .vstr "val")] []
    [("img", ⟨some "a", none⟩), ("ref", ⟨none, some "a"⟩), ("ref2", ⟨none, some "a"⟩)]

/-- C3: decoding `img: &a val` with alias site(s) `*a` and re-encoding
emits exactly one `&a` token and as many `*a` tokens as there are alias
sites (shown for one and for two alias sites), and decoding the encoded
output resolves each `ref` to the same literal value as `img`. -/
theorem yamlAnchorAliasFidelity :
    (yamlDecode "img: &a val\nref: *a\n" = .ok ⟨[anchorDocOne], false, some "YAML"⟩ ∧
      yamlEncode anchorDocOne = "img: &a val\nref: *a\n" ∧
      countOccur "&a".data (yamlEncode anchorDocOne).data = 1 ∧
      countOccur "*a".data (yamlEncode anchorDocOne).data = 1 ∧
      yamlDecode (yamlEncode anchorDocOne) = .ok ⟨[anchorDocOne], false, some "YAML"⟩ ∧
      anchorDocOne.objGet "ref" = anchorDocOne.objGet "img") ∧
    (yamlDecode "img: &a val\nref: *a\nref2: *a\n" =
        .ok ⟨[anchorDocTwo], false, some "YAML"⟩ ∧
      yamlEncode anchorDocTwo = "img: &a val\nref: *a\nref2: *a\n" ∧
      countOccur "&a".data (yamlEncode anchorDocTwo).data = 1 ∧
      countOccur "*a".data (yamlEncode anchorDocTwo).data = 2 ∧
      yamlDecode (yamlEncode anchorDocTwo) = .ok ⟨[anchorDocTwo], false, some "YAML"⟩ ∧
      anchorDocTwo.objGet "ref" = anchorDocTwo.objGet "img" ∧
      anchorDocTwo.objGet "ref2" = anchorDocTwo.objGet "img") := by
  exact ⟨⟨rfl, rfl, by decide, by decide, rfl, rfl⟩,
    ⟨rfl, rfl, by decide, by decide, rfl, rfl, rfl⟩⟩

theorem normComment_none : normComment none = none := rfl

theorem dropWhile_head_false {α : Type} (p : α → Bool) :
    forall (xs : List α) (y : α) (ys : List α), xs.dropWhile p = y :: ys → p y = false := by
  intro xs
  induction xs with
  | nil => intro y ys h; cases h
  | cons a t ih =>
    intro y ys h
    rw [List.dropWhile_cons] at h
    by_cases hp : p a = true
    · rw [if_pos hp] at h
      exact ih y ys h
    · rw [if_neg hp] at h
      cases h
      exact Bool.eq_false_iff.mpr hp

theorem joinSep_cons_ne_empty (y : String) (ys : List String)
    (hy : ¬ y.length = 0) : ¬ joinSep "\n" (y :: ys) = "" := by
  cases ys with
  | nil =>
    intro h
    rw [show joinSep "\n" [y] = y from rfl] at h
    rw [h] at hy
    exact hy rfl
  | cons z zs =>
    intro h
    rw [show joinSep "\n" (y :: z :: zs) = y ++ "\n" ++ joinSep "\n" (z :: zs) from rfl] at h
    have hd : (y ++ "\n" ++ joinSep "\n" (z :: zs)).data =
        y.data ++ '\n' :: (joinSep "\n" (z :: zs)).data := by
      simp [String.data_append]
    rw [h] at hd
    exact absurd hd.symm (by simp)

/-- A nonempty `norm` result is never the empty string, which grounds
the JS truthiness checks on normalized comment text. -/
theorem normComment_ne_empty (o : Option String) (s : String)
    (h : normComment o = some s) : ¬ s = "" := by
  cases o with
  | none => cases h
  | some text =>
    have h2 : (if (((splitNl text).map (fun l => String.mk (trimChars l.data))).dropWhile
          (fun l => decide (l.length = 0))).isEmpty = true then (none : Option String)
        else some (joinSep "\n"
          (((splitNl text).map (fun l => String.mk (trimChars l.data))).dropWhile
            (fun l => decide (l.length = 0))))) = some s := h
    by_cases he : (((splitNl text).map (fun l => String.mk (trimChars l.data))).dropWhile
        (fun l => decide (l.length = 0))).isEmpty = true
    · rw [if_pos he] at h2; cases h2
    · rw [if_neg he] at h2
      cases hdw : ((splitNl text).map (fun l => String.mk (trimChars l.data))).dropWhile
          (fun l => decide (l.length = 0)) with
      | nil => rw [hdw] at he; exact absurd rfl he
      | cons y ys =>
        rw [hdw] at h2
        have hy := dropWhile_head_false _ _ y ys hdw
        have hy2 : ¬ y.length = 0 := by simpa using hy
        have hne := joinSep_cons_ne_empty y ys hy2
        intro hs
        rw [← Option.some.inj h2] at hs
        exact hne hs

theorem header_append_ne (a b : String) : ¬ (a ++ "\n" ++ b = a) := by
  intro h
  have hd : (a ++ "\n" ++ b).data = a.data ++ '\n' :: b.data := by
    simp [String.data_append]
  rw [h] at hd
  have hlen := congrArg List.length hd
  simp at hlen

theorem drop_after_header (a b : String) :
    List.drop (a.length + 1) (a.data ++ '\n' :: b.data) = b.data := by
  have h1 : a.data ++ '\n' :: b.data = (a.data ++ ['\n']) ++ b.data := by simp
  rw [h1]
  have hlen : (a.data ++ ['\n']).length = a.length + 1 := by
    rw [List.length_append]
    rfl
  rw [← hlen, List.drop_left]

theorem mk_data_eq (b : String) : String.mk b.data = b := rfl

/-- The one-key document family used to state the header-deduplication
property: a single-document map AST whose map `commentBefore` is `cb`,
whose first key carries `commentBefore = kb`, and whose scalar value
carries the inline comment `ic`, walked in lockstep with its `toJS`
value. -/
def dedupFamily (fuel : Nat) (cb kb ic : Option String) (k s : String) : Value :=
  extractDocComments (fuel + 3)
    ⟨none, none, .ymap cb none none [⟨k, kb, .yscalar (.vstr s) none ic none⟩]⟩
    (.vobj [(k, .vstr s)] [] [])

set_option maxHeartbeats 1000000 in
set_option maxRecDepth 100000 in
/-- C4: decoding `"# line 1\n# line 2\nname: John\n"` yields the header
`before = "line 1\nline 2"` on the root `"#"` entry and no comment entry
for `name`; and in general, on a single-document map, the header text
promoted to the root `"#"` entry (the map's `commentBefore`, or failing
that the first key's `commentBefore`) is removed from the first key's
own `before` in the same pass, so it never appears in both places: the
first key keeps only its own `commentBefore` when both sources were
present, and its inline `after` comment. -/
theorem yamlHeaderDedup :
    (yamlDecode "# line 1\n# line 2\nname: John\n" =
      .ok ⟨[.vobj [("name", .vstr "John")] [("#", ⟨some "line 1\nline 2", none⟩)] []],
        false, some "YAML"⟩) ∧
    (forall (fuel : Nat) (cb kb ic : Option String) (k s : String), ¬ k = "#" →
      (((dedupFamily fuel cb kb ic k s).getComment "#").bind (fun e => e.before) =
          (normComment cb).orElse (fun _ => normComment kb) ∧
        ((dedupFamily fuel cb kb ic k s).getComment k).bind (fun e => e.before) =
          (match normComment cb, normComment kb with
            | some _, some kbv => some kbv
            | _, _ => none) ∧
        ((dedupFamily fuel cb kb ic k s).getComment k).bind (fun e => e.after) =
          normComment ic)) := by
  constructor
  · rfl
  · intro fuel cb kb ic k s hk
    refine ⟨?_, ?_, ?_⟩ <;>
      (cases hcb : normComment cb <;> cases hkb : normComment kb <;>
          cases hic : normComment ic <;>
        simp only [dedupFamily, extractDocComments, extractCommentsFromNode, ecfnPairs,
          hcb, hkb, hic, normComment_none, Value.setComment, Value.getComment,
          Value.getComments, Value.hasComments, Value.cmOf, Value.isComposite, Value.objGet,
          Value.delComment, alGet, alSet, alDel, truthy, Option.orElse, Option.bind,
          Option.isSome, Option.isNone, Bool.not_true, Bool.not_false, Bool.false_eq_true,
          Bool.true_eq_false, if_true, if_false, Bool.or_self, List.isEmpty] <;>
        first
          | (simp [hk, Ne.symm hk, alGet, alSet, alDel, Value.objSet, Value.isComposite,
              truthy, Value.setComment, Value.getComment, Value.getComments,
              Value.hasComments, Value.cmOf, header_append_ne, drop_after_header,
              mk_data_eq]; done)
          | (simp [hk, Ne.symm hk, alGet, alSet, alDel, Value.objSet, Value.isComposite,
              truthy, Value.setComment, Value.getComment, Value.getComments,
              Value.hasComments, Value.cmOf, header_append_ne, drop_after_header,
              mk_data_eq, normComment_ne_empty _ _ hkb]; done))

/-- Witness for C4's general part: with no map-level comment and a first
key `commentBefore` of `" header"`, the header is promoted to the root
entry and the first key keeps no before comment. -/
theorem yamlHeaderDedup_witness :
    ((dedupFamily 0 none (some " header") none "name" "John").getComment "#").bind
        (fun e => e.before) =
      (normComment none).orElse (fun _ => normComment (some " header")) ∧
    ((dedupFamily 0 none (some " header") none "name" "John").getComment "name").bind
        (fun e => e.before) = none :=
  ⟨(yamlHeaderDedup.2 0 none (some " header") none "name" "John" (by decide)).1,
    ((yamlHeaderDedup.2 0 none (some " header") none "name" "John" (by decide)).2.1).trans rfl⟩

/-! ## JSON/JSONC recursive-descent parser (`infrastructure/jsonParser.ts`) -/

/-- `readLineComment` (after the `//`): text up to (not including) the
newline, trimmed; the newline is not consumed and the line count is
unchanged. -/
def jcReadLineComment (cs : List Char) : String × List Char :=
  (String.mk (trimChars (cs.takeWhile (fun c => !(c = '\n')))),
    cs.dropWhile (fun c => !(c = '\n')))

/-- `readBlockComment` (after the `/*`): scan to `*/` (tracking newlines)
or to the end of input (the unterminated-block-comment leniency), with
the collected text trimmed. -/
def jcBlockScan : List Char → Nat → List Char → String × List Char × Nat
  | [], line, acc => (String.mk (trimChars acc.reverse), [], line)
  | c :: rest, line, acc =>
    if c = '*' ∧ rest.head? = some '/' then
      (String.mk (trimChars acc.reverse), rest.tail, line)
    else
      jcBlockScan rest (if c = '\n' then line + 1 else line) (c :: acc)

/-- `parseString`'s scan loop (after the opening quote): JSON escapes
(`\uXXXX` via `parseInt`/`fromCharCode`, unknown escapes kept verbatim),
newline counting on raw characters, `none` on an unterminated string. -/
def jcParseStringLoop : List Char → Nat → List Char → Option (String × List Char × Nat)
  | [], _, _ => none
  | '"' :: rest, line, acc => some (String.mk acc.reverse, rest, line)
  | '\\' :: esc, line, acc =>
    (match esc with
      | '"' :: r => jcParseStringLoop r line ('"' :: acc)
      | '\\' :: r => jcParseStringLoop r line ('\\' :: acc)
      | '/' :: r => jcParseStringLoop r line ('/' :: acc)
      | 'b' :: r => jcParseStringLoop r line ('\x08' :: acc)
      | 'f' :: r => jcParseStringLoop r line ('\x0c' :: acc)
      | 'n' :: r => jcParseStringLoop r line ('\n' :: acc)
      | 'r' :: r => jcParseStringLoop r line ('\r' :: acc)
      | 't' :: r => jcParseStringLoop r line ('\t' :: acc)
      | 'u' :: h1 :: h2 :: h3 :: h4 :: r =>
        jcParseStringLoop r line
          (Char.ofNat ((hexVal h1).getD 0 * 4096 + (hexVal h2).getD 0 * 256 +
            (hexVal h3).getD 0 * 16 + (hexVal h4).getD 0) :: acc)
      | 'u' :: _ => none
      | c :: r => jcParseStringLoop r line (c :: acc)
      | [] => none)
  | c :: rest, line, acc =>
    jcParseStringLoop rest (if c = '\n' then line + 1 else line) (c :: acc)

/-- `parseNumber`: scan sign, integer, fraction and exponent parts; the
final `isNaN(Number(numStr))` check is embedded as "at least one integer
or fraction digit, and a nonempty exponent when `e`/`E` is present". -/
def jcParseNumber (cs : List Char) : Option (String × List Char) :=
  let (signL, cs1) :=
    match cs with
    | '-' :: r => (['-'], r)
    | _ => (([] : List Char), cs)
  let (intL, cs2) :=
    match cs1 with
    | '0' :: r => (['0'], r)
    | _ => (cs1.takeWhile Char.isDigit, cs1.dropWhile Char.isDigit)
  let (fracL, cs3) :=
    match cs2 with
    | '.' :: r => ('.' :: r.takeWhile Char.isDigit, r.dropWhile Char.isDigit)
    | _ => (([] : List Char), cs2)
  let expRes :=
    match cs3 with
    | c :: r =>
      if c = 'e' || c = 'E' then
        let (sgn, r2) :=
          match r with
          | '+' :: rr => (['+'], rr)
          | '-' :: rr => (['-'], rr)
          | _ => (([] : List Char), r)
        let ds := r2.takeWhile Char.isDigit
        (c :: (sgn ++ ds), r2.dropWhile Char.isDigit, !ds.isEmpty)
      else (([] : List Char), c :: r, true)
    | [] => (([] : List Char), ([] : List Char), true)
  let digitCount := intL.length + (if fracL.isEmpty then 0 else fracL.length - 1)
  if digitCount = 0 || !expRes.2.2 then none
  else some (String.mk (signL ++ intL ++ fracL ++ expRes.1), expRes.2.1)

/-- `skipWS`: skip whitespace (counting newlines) and collect `//` and
`/* */` comment texts in order.  One fuel tick covers one whitespace
character or one whole comment. -/
def jcSkipWS : Nat → List Char → Nat → List String × List Char × Nat
  | 0, cs, line => ([], cs, line)
  | _ + 1, [], line => ([], [], line)
  | fuel + 1, c :: rest, line =>
    if c = ' ' ∨ c = '\t' ∨ c = '\r' then jcSkipWS fuel rest line
    else if c = '\n' then jcSkipWS fuel rest (line + 1)
    else if c = '/' ∧ rest.head? = some '/' then
      let t := jcReadLineComment rest.tail
      let more := jcSkipWS fuel t.2 line
      (t.1 :: more.1, more.2.1, more.2.2)
    else if c = '/' ∧ rest.head? = some '*' then
      let t := jcBlockScan rest.tail line []
      let more := jcSkipWS fuel t.2.1 t.2.2
      (t.1 :: more.1, more.2.1, more.2.2)
    else ([], c :: rest, line)

/-- `pendingComments.length > 0 ? join("\n") : null`. -/
def joinOpt (l : List String) : Option String :=
  if l.isEmpty then none else some (joinSep "\n" l)

/-- `[pendingBefore, preValue].filter(Boolean).join("\n") || null`. -/
def joinTruthy (a b : Option String) : Option String :=
  match truthy a, truthy b with
  | some x, some y => some (x ++ "\n" ++ y)
  | some x, none => some x
  | none, some y => some y
  | none, none => none

/-- `skipWSAfterValue(valueLine)`: skip whitespace, one optional comma,
and comments; the first comment starting on `valueLine` becomes the
inline comment, every other comment is appended to the pending list.
Returns `(inlineComment, pendingComments, hadComma, rest, line)`. -/
def jcSkipWSAfterValue : Nat → Nat → List Char → Nat → Option String → List String →
    Bool → Option String × List String × Bool × List Char × Nat
  | 0, _, cs, line, inl, pend, comma => (inl, pend, comma, cs, line)
  | _ + 1, _, [], line, inl, pend, comma => (inl, pend, comma, [], line)
  | fuel + 1, valueLine, c :: rest, line, inl, pend, comma =>
    if c = ' ' ∨ c = '\t' ∨ c = '\r' then
      jcSkipWSAfterValue fuel valueLine rest line inl pend comma
    else if c = '\n' then
      jcSkipWSAfterValue fuel valueLine rest (line + 1) inl pend comma
    else if c = ',' ∧ comma = false then
      jcSkipWSAfterValue fuel valueLine rest line inl pend true
    else if c = '/' ∧ rest.head? = some '/' then
      let t := jcReadLineComment rest.tail
      if line = valueLine ∧ inl = none then
        jcSkipWSAfterValue fuel valueLine t.2 line (some t.1) pend comma
      else
        jcSkipWSAfterValue fuel valueLine t.2 line inl (pend ++ [t.1]) comma
    else if c = '/' ∧ rest.head? = some '*' then
      let t := jcBlockScan rest.tail line []
      if line = valueLine ∧ inl = none then
        jcSkipWSAfterValue fuel valueLine t.2.1 t.2.2 (some t.1) pend comma
      else
        jcSkipWSAfterValue fuel valueLine t.2.1 t.2.2 inl (pend ++ [t.1]) comma
    else (inl, pend, comma, c :: rest, line)

/-- Trailing pending comments become the container's `"#"` entry's
`after` (source lines 230-233 and 275-278). -/
def jcAttachTrailing (cm : List (String × CommentEntry)) (pendingBefore : Option String) :
    List (String × CommentEntry) :=
  match truthy pendingBefore with
  | some b => alSet cm "#" ⟨(alGet cm "#").bind (fun e => e.before), some b⟩
  | none => cm

mutual

/-- `parseValue`: dispatch on the next character, mirroring the source's
`if` chain. -/
def jcParseValue : Nat → List Char → Nat → Except String (Value × List Char × Nat)
  | 0, _, _ => .error "out of fuel"
  | _ + 1, [], _ => .error "Unexpected character"
  | fuel + 1, c :: rest, line =>
    if c = '{' then jcParseObject fuel rest line
    else if c = '[' then jcParseArray fuel rest line
    else if c = '"' then
      match jcParseStringLoop rest line [] with
      | some (s, r, l) => .ok (.vstr s, r, l)
      | none => .error "Unterminated string"
    else if c = 't' ∨ c = 'f' then
      if "true".data.isPrefixOf (c :: rest) then .ok (.vbool true, rest.drop 3, line)
      else if "false".data.isPrefixOf (c :: rest) then .ok (.vbool false, rest.drop 4, line)
      else .error "Expected boolean"
    else if c = 'n' then
      if "null".data.isPrefixOf (c :: rest) then .ok (.vnull, rest.drop 3, line)
      else .error "Expected null"
    else if c = '-' ∨ c.isDigit then
      match jcParseNumber (c :: rest) with
      | some (lit, r) => .ok (.vnum lit, r, line)
      | none => .error "Invalid number"
    else .error "Unexpected character"

/-- `parseObject` (after the `{`). -/
def jcParseObject : Nat → List Char → Nat → Except String (Value × List Char × Nat)
  | 0, _, _ => .error "out of fuel"
  | fuel + 1, cs, line =>
    let w := jcSkipWS (fuel + 1) cs line
    let pendingBefore := joinOpt w.1
    if w.2.1.head? = some '}' then
      .ok (.vobj []
        (match pendingBefore with
          | some b => [("#", ⟨some b, none⟩)]
          | none => []) [], w.2.1.tail, w.2.2)
    else jcParseObjectLoop fuel w.2.1 w.2.2 [] [] pendingBefore

/-- The entry loop of `parseObject`. -/
def jcParseObjectLoop : Nat → List Char → Nat → List (String × Value) →
    List (String × CommentEntry) → Option String →
    Except String (Value × List Char × Nat)
  | 0, _, _, _, _, _ => .error "out of fuel"
  | _ + 1, [], _, _, _, _ => .error "Expected string key"
  | fuel + 1, c :: rest, line, fields, cm, pendingBefore =>
    if c = '}' then
      .ok (.vobj fields (jcAttachTrailing cm pendingBefore) [], rest, line)
    else if c = '"' then
      match jcParseStringLoop rest line [] with
      | none => .error "Unterminated string"
      | some (key, cs2, l2) =>
        let w1 := jcSkipWS (fuel + 1) cs2 l2
        if w1.2.1.head? = some ':' then
          let w2 := jcSkipWS (fuel + 1) w1.2.1.tail w1.2.2
          let beforeComment := joinTruthy pendingBefore (joinOpt w2.1)
          let valueLine := w2.2.2
          match jcParseValue fuel w2.2.1 valueLine with
          | .error e => .error e
          | .ok (v, cs6, l6) =>
            let fields1 := alSet fields key v
            let a := jcSkipWSAfterValue (fuel + 1) valueLine cs6 l6 none [] false
            let entryAfter := truthy a.1
            let cm1 :=
              if beforeComment.isSome || entryAfter.isSome then
                alSet cm key ⟨beforeComment, entryAfter⟩
              else cm
            let pending1 := joinOpt a.2.1
            if a.2.2.1 then
              jcParseObjectLoop fuel a.2.2.2.1 a.2.2.2.2 fields1 cm1 pending1
            else if a.2.2.2.1.head? = some '}' then
              .ok (.vobj fields1 (jcAttachTrailing cm1 pending1) [],
                a.2.2.2.1.tail, a.2.2.2.2)
            else .error "Expected closing brace"
        else .error "Expected colon"
    else .error "Expected string key"

/-- `parseArray` (after the `[`). -/
def jcParseArray : Nat → List Char → Nat → Except String (Value × List Char × Nat)
  | 0, _, _ => .error "out of fuel"
  | fuel + 1, cs, line =>
    let w := jcSkipWS (fuel + 1) cs line
    let pendingBefore := joinOpt w.1
    if w.2.1.head? = some ']' then
      .ok (.varr []
        (match pendingBefore with
          | some b => [("#", ⟨some b, none⟩)]
          | none => []) [] false, w.2.1.tail, w.2.2)
    else jcParseArrayLoop fuel w.2.1 w.2.2 [] [] pendingBefore 0

/-- The element loop of `parseArray`. -/
def jcParseArrayLoop : Nat → List Char → Nat → List Value →
    List (String × CommentEntry) → Option String → Nat →
    Except String (Value × List Char × Nat)
  | 0, _, _, _, _, _, _ => .error "out of fuel"
  | _ + 1, [], _, _, _, _, _ => .error "Unexpected character"
  | fuel + 1, c :: rest, line, items, cm, pendingBefore, idx =>
    if c = ']' then
      .ok (.varr items (jcAttachTrailing cm pendingBefore) [] false, rest, line)
    else
      let valueLine := line
      match jcParseValue fuel (c :: rest) line with
      | .error e => .error e
      | .ok (v, cs2, l2) =>
        let items1 := items ++ [v]
        let a := jcSkipWSAfterValue (fuel + 1) valueLine cs2 l2 none [] false
        let entryBefore := truthy pendingBefore
        let entryAfter := truthy a.1
        let cm1 :=
          if entryBefore.isSome || entryAfter.isSome then
            alSet cm (toString idx) ⟨entryBefore, entryAfter⟩
          else cm
        let pending1 := joinOpt a.2.1
        if a.2.2.1 then
          jcParseArrayLoop fuel a.2.2.2.1 a.2.2.2.2 items1 cm1 pending1 (idx + 1)
        else if a.2.2.2.1.head? = some ']' then
          .ok (.varr items1 (jcAttachTrailing cm1 pending1) [] false,
            a.2.2.2.1.tail, a.2.2.2.2)
        else .error "Expected closing bracket"

end

/-- `parseJson`: leading comments become the root's `"#"` `before`,
trailing comments its `"#"` `after`; trailing non-comment text is
ignored, exactly as in the source's `parse()`. -/
def parseJson (input : String) : Except String Value :=
  let fuel := input.data.length + 2
  let w := jcSkipWS fuel input.data 0
  let before := joinOpt w.1
  match jcParseValue fuel w.2.1 w.2.2 with
  | .error e => .error e
  | .ok (v, cs2, l2) =>
    let v1 :=
      match truthy before with
      | some b => if v.isComposite then v.setComment "#" ⟨some b, none⟩ else v
      | none => v
    let w2 := jcSkipWS fuel cs2 l2
    match truthy (joinOpt w2.1) with
    | some a =>
      if v1.isComposite then
        .ok (v1.setComment "#" ⟨(v1.getComment "#").bind (fun e => e.before), some a⟩)
      else .ok v1
    | none => .ok v1

/-! ### Declarative reading of `skipWSAfterValue` -/

/-- Declarative comment scan after a value: collect every comment text
together with the line it starts on, consume whitespace and at most one
comma, and stop at the first other character.  This is the "what" of
`skipRegionAfterValue`; routing into inline/pending is done separately. -/
def jcAfterTokens : Nat → List Char → Nat → Bool →
    List (Nat × String) × Bool × List Char × Nat
  | 0, cs, line, comma => ([], comma, cs, line)
  | _ + 1, [], line, comma => ([], comma, [], line)
  | fuel + 1, c :: rest, line, comma =>
    if c = ' ' ∨ c = '\t' ∨ c = '\r' then jcAfterTokens fuel rest line comma
    else if c = '\n' then jcAfterTokens fuel rest (line + 1) comma
    else if c = ',' ∧ comma = false then jcAfterTokens fuel rest line true
    else if c = '/' ∧ rest.head? = some '/' then
      let t := jcReadLineComment rest.tail
      let more := jcAfterTokens fuel t.2 line comma
      ((line, t.1) :: more.1, more.2.1, more.2.2.1, more.2.2.2)
    else if c = '/' ∧ rest.head? = some '*' then
      let t := jcBlockScan rest.tail line []
      let more := jcAfterTokens fuel t.2.1 t.2.2 comma
      ((line, t.1) :: more.1, more.2.1, more.2.2.1, more.2.2.2)
    else ([], comma, c :: rest, line)

/-- The first comment of the scan that starts on the value's line. -/
def firstSameLine (vl : Nat) (toks : List (Nat × String)) : Option String :=
  (toks.find? (fun t => t.1 = vl)).map (fun t => t.2)

/-- Every comment of the scan except the first one on the value's line. -/
def removeFirstSameLine (vl : Nat) : List (Nat × String) → List (Nat × String)
  | [] => []
  | t :: r => if t.1 = vl then r else t :: removeFirstSameLine vl r

/-- How the inline slot is filled from the scan, given its prior state. -/
def routeInline (vl : Nat) (inl : Option String) (toks : List (Nat × String)) :
    Option String :=
  match inl with
  | some x => some x
  | none => firstSameLine vl toks

/-- Which scanned comments land in the pending list. -/
def routePending (vl : Nat) (inl : Option String) (toks : List (Nat × String)) :
    List String :=
  match inl with
  | some _ => toks.map (fun t => t.2)
  | none => (removeFirstSameLine vl toks).map (fun t => t.2)

theorem firstSameLine_cons_pos (vl : Nat) (s : String) (r : List (Nat × String)) :
    firstSameLine vl ((vl, s) :: r) = some s := by
  simp [firstSameLine, List.find?]

theorem firstSameLine_cons_neg (vl ln : Nat) (s : String) (r : List (Nat × String))
    (h : ¬ ln = vl) : firstSameLine vl ((ln, s) :: r) = firstSameLine vl r := by
  simp [firstSameLine, List.find?, h]

theorem removeFirstSameLine_cons_pos (vl : Nat) (s : String) (r : List (Nat × String)) :
    removeFirstSameLine vl ((vl, s) :: r) = r := by
  simp [removeFirstSameLine]

theorem removeFirstSameLine_cons_neg (vl ln : Nat) (s : String) (r : List (Nat × String))
    (h : ¬ ln = vl) :
    removeFirstSameLine vl ((ln, s) :: r) = (ln, s) :: removeFirstSameLine vl r := by
  simp [removeFirstSameLine, h]

/-- Generalized invariant: `skipWSAfterValue` from any accumulator state
equals the declarative scan routed through `routeInline`/`routePending`. -/
theorem jcSkipWSAfterValue_eq_general (vl : Nat) :
    ∀ fuel cs line inl pend comma,
      jcSkipWSAfterValue fuel vl cs line inl pend comma =
        (routeInline vl inl (jcAfterTokens fuel cs line comma).1,
          pend ++ routePending vl inl (jcAfterTokens fuel cs line comma).1,
          (jcAfterTokens fuel cs line comma).2.1,
          (jcAfterTokens fuel cs line comma).2.2.1,
          (jcAfterTokens fuel cs line comma).2.2.2) := by
  intro fuel
  induction fuel with
  | zero =>
    intro cs line inl pend comma
    cases inl <;>
      simp [jcSkipWSAfterValue, jcAfterTokens, routeInline, routePending,
        firstSameLine, removeFirstSameLine]
  | succ fuel ih =>
    intro cs line inl pend comma
    cases cs with
    | nil =>
      cases inl <;>
        simp [jcSkipWSAfterValue, jcAfterTokens, routeInline, routePending,
          firstSameLine, removeFirstSameLine]
    | cons c rest =>
      simp only [jcSkipWSAfterValue, jcAfterTokens]
      split_ifs with h1 h2 h3 h4 h5 h6 h7
      · exact ih rest line inl pend comma
      · exact ih rest (line + 1) inl pend comma
      · exact ih rest line inl pend true
      · -- line comment taken as the inline comment
        obtain ⟨h5a, h5b⟩ := h5
        subst h5a; subst h5b
        rw [ih]
        simp [routeInline, routePending, firstSameLine_cons_pos,
          removeFirstSameLine_cons_pos]
      · -- line comment pushed to pending
        rw [ih]
        cases inl with
        | some x => simp [routeInline, routePending, List.append_assoc]
        | none =>
          have h5' : ¬ line = vl := fun he => h5 ⟨he, rfl⟩
          simp [routeInline, routePending,
            firstSameLine_cons_neg _ _ _ _ h5',
            removeFirstSameLine_cons_neg _ _ _ _ h5', List.append_assoc]
      · -- block comment taken as the inline comment
        obtain ⟨h7a, h7b⟩ := h7
        subst h7a; subst h7b
        rw [ih]
        simp [routeInline, routePending, firstSameLine_cons_pos,
          removeFirstSameLine_cons_pos]
      · -- block comment pushed to pending
        rw [ih]
        cases inl with
        | some x => simp [routeInline, routePending, List.append_assoc]
        | none =>
          have h7' : ¬ line = vl := fun he => h7 ⟨he, rfl⟩
          simp [routeInline, routePending,
            firstSameLine_cons_neg _ _ _ _ h7',
            removeFirstSameLine_cons_neg _ _ _ _ h7', List.append_assoc]
      · cases inl <;>
          simp [routeInline, routePending, firstSameLine, removeFirstSameLine]


/-! ### Splice lemmas and the C6 comment-routing development -/

theorem alnum_ne (c d : Char) (h : c.isAlphanum = true) (hd : d.isAlphanum = false) :
    ¬ c = d := by
  intro he
  subst he
  rw [h] at hd
  exact Bool.noConfusion hd

theorem isJsWS_of_alnum (c : Char) (h : c.isAlphanum = true) : isJsWS c = false := by
  have h1 := alnum_ne c ' ' h (by decide)
  have h2 := alnum_ne c '\t' h (by decide)
  have h3 := alnum_ne c '\r' h (by decide)
  have h4 := alnum_ne c '\n' h (by decide)
  have h5 := alnum_ne c '\x0b' h (by decide)
  have h6 := alnum_ne c '\x0c' h (by decide)
  simp [isJsWS, h1, h2, h3, h4, h5, h6]

theorem dropWhile_alnum (l : List Char) (h : ∀ c ∈ l, c.isAlphanum = true) :
    l.dropWhile isJsWS = l := by
  cases l with
  | nil => rfl
  | cons c r =>
    rw [List.dropWhile_cons, isJsWS_of_alnum c (h c (by simp))]
    simp

theorem trimChars_alnum (t : List Char) (h : ∀ c ∈ t, c.isAlphanum = true) :
    trimChars t = t := by
  unfold trimChars
  rw [dropWhile_alnum t h,
    dropWhile_alnum t.reverse (fun c hc => h c (List.mem_reverse.mp hc)),
    List.reverse_reverse]

theorem takeWhile_append_stop (p : Char → Bool) (t : List Char) (c : Char) (r : List Char)
    (ht : ∀ a ∈ t, p a = true) (hc : p c = false) :
    (t ++ c :: r).takeWhile p = t := by
  induction t with
  | nil => simp [List.takeWhile_cons, hc]
  | cons a t ih =>
    rw [List.cons_append, List.takeWhile_cons, ht a (by simp)]
    rw [ih (fun a ha => ht a (by simp [ha]))]
    simp

theorem dropWhile_append_stop (p : Char → Bool) (t : List Char) (c : Char) (r : List Char)
    (ht : ∀ a ∈ t, p a = true) (hc : p c = false) :
    (t ++ c :: r).dropWhile p = c :: r := by
  induction t with
  | nil => simp [List.dropWhile_cons, hc]
  | cons a t ih =>
    rw [List.cons_append, List.dropWhile_cons, ht a (by simp)]
    exact ih (fun a ha => ht a (by simp [ha]))

theorem jcReadLineComment_alnum (t r : List Char) (h : ∀ c ∈ t, c.isAlphanum = true) :
    jcReadLineComment (t ++ '\n' :: r) = (String.mk t, '\n' :: r) := by
  unfold jcReadLineComment
  rw [takeWhile_append_stop _ t '\n' r
      (fun a ha => by simp [alnum_ne a '\n' (h a ha) (by decide)]) (by decide),
    dropWhile_append_stop _ t '\n' r
      (fun a ha => by simp [alnum_ne a '\n' (h a ha) (by decide)]) (by decide),
    trimChars_alnum t h]

theorem jcBlockScan_alnum (t : List Char) (r : List Char) (line : Nat)
    (h : ∀ c ∈ t, c.isAlphanum = true) :
    ∀ acc, jcBlockScan (t ++ '*' :: '/' :: r) line acc =
      (String.mk (trimChars (acc.reverse ++ t)), r, line) := by
  induction t with
  | nil => intro acc; simp [jcBlockScan]
  | cons c t ih =>
    intro acc
    rw [List.cons_append]
    rw [jcBlockScan]
    rw [if_neg (fun hp => absurd hp.1 (alnum_ne c '*' (h c (by simp)) (by decide)))]
    rw [if_neg (alnum_ne c '\n' (h c (by simp)) (by decide))]
    rw [ih (fun a ha => h a (by simp [ha])) (c :: acc)]
    simp

def objFamTail (x y z w : String) : List Char :=
  '\"' :: 'a' :: '\"' :: ':' :: ' ' :: '1' :: ' ' :: '/' :: '*' :: (x.data ++ '*' :: '/' :: ' ' :: '/' :: '*' :: (y.data ++ '*' :: '/' :: ',' :: '\n' :: '/' :: '/' :: (z.data ++ '\n' :: '\"' :: 'b' :: '\"' :: ':' :: ' ' :: '2' :: ',' :: '\n' :: '/' :: '/' :: (w.data ++ ['\n', '}']))))

theorem mkOne : String.mk ['1'] = "1" := rfl

theorem mkTwo : String.mk ['2'] = "2" := rfl

set_option maxHeartbeats 3000000 in
theorem jcObjFamily (fuel : Nat) (x y z w : String)
    (hx : ∀ c ∈ x.data, c.isAlphanum = true) (hx0 : ¬ x = "")
    (hy : ∀ c ∈ y.data, c.isAlphanum = true)
    (hz : ∀ c ∈ z.data, c.isAlphanum = true)
    (hw : ∀ c ∈ w.data, c.isAlphanum = true) (hw0 : ¬ w = "") :
    jcParseObject (fuel + 20) (objFamTail x y z w) 0 =
      .ok (.vobj [("a", .vnum "1"), ("b", .vnum "2")]
        [("a", ⟨none, some x⟩),
         ("b", ⟨some (y ++ "\n" ++ z), none⟩),
         ("#", ⟨none, some w⟩)] [], [], 4) := by
  have hyz : ¬ (y ++ "\n" ++ z) = "" := by
    intro he
    have h2 : (y ++ "\n" ++ z).data.length = 0 := by rw [he]; rfl
    simp [String.data_append] at h2
  have hA1 : jcSkipWSAfterValue (fuel + 19) 0 (' ' :: '/' :: '*' :: (x.data ++ '*' :: '/' :: ' ' :: '/' :: '*' :: (y.data ++ '*' :: '/' :: ',' :: '\n' :: '/' :: '/' :: (z.data ++ '\n' :: '\"' :: 'b' :: '\"' :: ':' :: ' ' :: '2' :: ',' :: '\n' :: '/' :: '/' :: (w.data ++ ['\n', '}']))))) 0 none [] false =
      (some x, [y, z], true, '\"' :: 'b' :: '\"' :: ':' :: ' ' :: '2' :: ',' :: '\n' :: '/' :: '/' :: (w.data ++ ['\n', '}']), 2) := by
    simp [jcSkipWSAfterValue, jcBlockScan_alnum x.data _ _ hx,
      jcBlockScan_alnum y.data _ _ hy, jcReadLineComment_alnum z.data _ hz,
      trimChars_alnum x.data hx, trimChars_alnum y.data hy, mk_data_eq]
  have hA2 : jcSkipWSAfterValue (fuel + 18) 2 (',' :: '\n' :: '/' :: '/' :: (w.data ++ ['\n', '}'])) 2 none [] false =
      (none, [w], true, ['}'], 4) := by
    simp [jcSkipWSAfterValue, jcReadLineComment_alnum w.data _ hw,
      trimChars_alnum w.data hw, mk_data_eq]
  simp [objFamTail, jcParseObject, jcParseObjectLoop, jcParseValue, jcSkipWS,
    jcParseStringLoop, jcParseNumber, hA1, hA2, joinOpt, joinTruthy, truthy,
    jcAttachTrailing, alSet, alGet, joinSep, mkOne, mkTwo, hx0, hw0, hyz]


def arrFamTail (x y z w : String) : List Char :=
  '1' :: ' ' :: '/' :: '*' :: (x.data ++ '*' :: '/' :: ' ' :: '/' :: '*' :: (y.data ++ '*' :: '/' :: ',' :: '\n' :: '/' :: '/' :: (z.data ++ '\n' :: '2' :: ',' :: '\n' :: '/' :: '/' :: (w.data ++ ['\n', ']']))))

theorem tosZero : toString (0 : Nat) = "0" := rfl

theorem tosOne : toString (1 : Nat) = "1" := rfl

set_option maxHeartbeats 3000000 in
theorem jcArrFamily (fuel : Nat) (x y z w : String)
    (hx : ∀ c ∈ x.data, c.isAlphanum = true) (hx0 : ¬ x = "")
    (hy : ∀ c ∈ y.data, c.isAlphanum = true)
    (hz : ∀ c ∈ z.data, c.isAlphanum = true)
    (hw : ∀ c ∈ w.data, c.isAlphanum = true) (hw0 : ¬ w = "") :
    jcParseArray (fuel + 20) (arrFamTail x y z w) 0 =
      .ok (.varr [.vnum "1", .vnum "2"]
        [("0", ⟨none, some x⟩),
         ("1", ⟨some (y ++ "\n" ++ z), none⟩),
         ("#", ⟨none, some w⟩)] [] false, [], 4) := by
  have hyz : ¬ (y ++ "\n" ++ z) = "" := by
    intro he
    have h2 : (y ++ "\n" ++ z).data.length = 0 := by rw [he]; rfl
    simp [String.data_append] at h2
  have hA1 : jcSkipWSAfterValue (fuel + 19) 0 (' ' :: '/' :: '*' :: (x.data ++ '*' :: '/' :: ' ' :: '/' :: '*' :: (y.data ++ '*' :: '/' :: ',' :: '\n' :: '/' :: '/' :: (z.data ++ '\n' :: '2' :: ',' :: '\n' :: '/' :: '/' :: (w.data ++ ['\n', ']']))))) 0 none [] false =
      (some x, [y, z], true, '2' :: ',' :: '\n' :: '/' :: '/' :: (w.data ++ ['\n', ']']), 2) := by
    simp [jcSkipWSAfterValue, jcBlockScan_alnum x.data _ _ hx,
      jcBlockScan_alnum y.data _ _ hy, jcReadLineComment_alnum z.data _ hz,
      trimChars_alnum x.data hx, trimChars_alnum y.data hy, mk_data_eq]
  have hA2 : jcSkipWSAfterValue (fuel + 18) 2 (',' :: '\n' :: '/' :: '/' :: (w.data ++ ['\n', ']'])) 2 none [] false =
      (none, [w], true, [']'], 4) := by
    simp [jcSkipWSAfterValue, jcReadLineComment_alnum w.data _ hw,
      trimChars_alnum w.data hw, mk_data_eq]
  simp [arrFamTail, jcParseArray, jcParseArrayLoop, jcParseValue, jcSkipWS,
    jcParseNumber, hA1, hA2, joinOpt, joinTruthy, truthy,
    jcAttachTrailing, alSet, alGet, joinSep, mkOne, mkTwo, tosZero, tosOne,
    hx0, hw0, hyz]


set_option maxHeartbeats 2000000 in
/-- C6 counterexample input `(with braces) "a": 1 /*x*/ /*y*/, "b": 2`:
the second same-line block comment `y` does not become `"a"`'s inline
`after` comment (only the first, `x`, does); `y` is routed to pending
and surfaces as the next entry `"b"`'s `before` comment. -/
theorem jsonc_same_line_comment_counterexample :
    parseJson "\x7b\"a\": 1 /*x*/ /*y*/, \"b\": 2\x7d" =
      .ok (.vobj [("a", .vnum "1"), ("b", .vnum "2")]
        [("a", ⟨none, some "x"⟩), ("b", ⟨some "y", none⟩)] []) ∧
    (Value.vobj [("a", .vnum "1"), ("b", .vnum "2")]
        [("a", ⟨none, some "x"⟩), ("b", ⟨some "y", none⟩)] []).getComment "a" =
      some ⟨none, some "x"⟩ ∧
    (Value.vobj [("a", .vnum "1"), ("b", .vnum "2")]
        [("a", ⟨none, some "x"⟩), ("b", ⟨some "y", none⟩)] []).getComment "b" =
      some ⟨some "y", none⟩ := by
  refine ⟨?_, rfl, rfl⟩
  have hd : ("\x7b\"a\": 1 /*x*/ /*y*/, \"b\": 2\x7d" : String).data =
      '\x7b' :: '"' :: 'a' :: '"' :: ':' :: ' ' :: '1' :: ' ' :: '/' :: '*' :: 'x' ::
      '*' :: '/' :: ' ' :: '/' :: '*' :: 'y' :: '*' :: '/' :: ',' :: ' ' :: '"' ::
      'b' :: '"' :: ':' :: ' ' :: '2' :: ['\x7d'] := rfl
  simp [parseJson, hd, jcSkipWS, jcParseValue, jcParseObject, jcParseObjectLoop,
    jcParseStringLoop, jcParseNumber, jcSkipWSAfterValue, jcBlockScan,
    jcReadLineComment, trimChars, isJsWS, joinOpt, joinTruthy, truthy,
    jcAttachTrailing, alSet, alGet, joinSep, Value.setComment, Value.getComment,
    Value.getComments, Value.hasComments, Value.cmOf, Value.isComposite, mk_data_eq]

set_option maxHeartbeats 1000000 in
/-- C6 (amended): after an entry's value, only the first comment starting
on the value's start line becomes that entry's `after` (inline) comment;
every other comment — a second same-line comment as well as any
later-line comment — joins the pending list in source order (joined with
a newline), is prepended to the next entry's `before` comment, or
becomes the container's `"#"` trailing `after` comment when no entry
follows.  Conjunct 1 proves the inline/pending split of
`skipWSAfterValue` on every input and scan state; conjuncts 2 and 3
verify the routing through `parseObject`/`parseArray` on two-entry
object/array families whose four comment payloads are arbitrary nonempty
alphanumeric strings. -/
theorem jsonc_comment_routing :
    (∀ fuel vl cs line comma,
      jcSkipWSAfterValue fuel vl cs line none [] comma =
        (firstSameLine vl (jcAfterTokens fuel cs line comma).1,
          (removeFirstSameLine vl (jcAfterTokens fuel cs line comma).1).map
            (fun t => t.2),
          (jcAfterTokens fuel cs line comma).2.1,
          (jcAfterTokens fuel cs line comma).2.2.1,
          (jcAfterTokens fuel cs line comma).2.2.2)) ∧
    (∀ fuel x y z w, (∀ c ∈ x.data, c.isAlphanum = true) → ¬ x = "" →
      (∀ c ∈ y.data, c.isAlphanum = true) →
      (∀ c ∈ z.data, c.isAlphanum = true) →
      (∀ c ∈ w.data, c.isAlphanum = true) → ¬ w = "" →
      jcParseObject (fuel + 20) (objFamTail x y z w) 0 =
        .ok (.vobj [("a", .vnum "1"), ("b", .vnum "2")]
          [("a", ⟨none, some x⟩),
           ("b", ⟨some (y ++ "\n" ++ z), none⟩),
           ("#", ⟨none, some w⟩)] [], [], 4)) ∧
    (∀ fuel x y z w, (∀ c ∈ x.data, c.isAlphanum = true) → ¬ x = "" →
      (∀ c ∈ y.data, c.isAlphanum = true) →
      (∀ c ∈ z.data, c.isAlphanum = true) →
      (∀ c ∈ w.data, c.isAlphanum = true) → ¬ w = "" →
      jcParseArray (fuel + 20) (arrFamTail x y z w) 0 =
        .ok (.varr [.vnum "1", .vnum "2"]
          [("0", ⟨none, some x⟩),
           ("1", ⟨some (y ++ "\n" ++ z), none⟩),
           ("#", ⟨none, some w⟩)] [] false, [], 4)) := by
  refine ⟨?_, ?_, ?_⟩
  · intro fuel vl cs line comma
    have h := jcSkipWSAfterValue_eq_general vl fuel cs line none [] comma
    simpa [routeInline, routePending] using h
  · intro fuel x y z w hx hx0 hy hz hw hw0
    exact jcObjFamily fuel x y z w hx hx0 hy hz hw hw0
  · intro fuel x y z w hx hx0 hy hz hw hw0
    exact jcArrFamily fuel x y z w hx hx0 hy hz hw hw0

/-- Witness for C6: both families instantiated at the concrete payloads
`x`, `y`, `z`, `w`. -/
theorem jsonc_comment_routing_witness :
    jcParseObject (0 + 20) (objFamTail "x" "y" "z" "w") 0 =
      .ok (.vobj [("a", .vnum "1"), ("b", .vnum "2")]
        [("a", ⟨none, some "x"⟩), ("b", ⟨some ("y" ++ "\n" ++ "z"), none⟩),
         ("#", ⟨none, some "w"⟩)] [], [], 4) ∧
    jcParseArray (0 + 20) (arrFamTail "x" "y" "z" "w") 0 =
      .ok (.varr [.vnum "1", .vnum "2"]
        [("0", ⟨none, some "x"⟩), ("1", ⟨some ("y" ++ "\n" ++ "z"), none⟩),
         ("#", ⟨none, some "w"⟩)] [] false, [], 4) :=
  ⟨jsonc_comment_routing.2.1 0 "x" "y" "z" "w" (by decide) (by decide)
      (by decide) (by decide) (by decide) (by decide),
    jsonc_comment_routing.2.2 0 "x" "y" "z" "w" (by decide) (by decide)
      (by decide) (by decide) (by decide) (by decide)⟩


end Aq
